import Mathlib

/-!
Verification of the endpoint-discovery / OpenAPI-generation pipeline.

This file gives a shallow embedding, in Lean, of the pure core of the
backend pipeline (path normalization, parameter extraction, spec assembly,
snippet reading, grep-style searching, inventory building, and the
JSON-recovery / enrichment logic), and proves or refutes the behavioural
claims made about it.

Conventions used throughout:
* Python strings are modelled as `String` / `List Char`; the scanning
  functions that mirror `re.sub` / `re.findall` calls are written with an
  explicit fuel argument (structural recursion on the fuel) so that every
  definition is executable and reduces inside the kernel.  Each wrapper
  passes the length of the input as fuel, which is always sufficient since
  every recursive call consumes at least one character.
* External collaborators (the regex engine used by the searcher, glob
  expansion, the filesystem, and the LLM completion itself) are passed in
  as function arguments; everything the repository's own code does with
  their results is translated directly from the source.
* Machine integers are `Nat` / `Int`; Python's `max`/`min`/slicing are
  modelled explicitly (`pySlice` implements Python's slice semantics for
  integer bounds).
-/

/-! ## Basic Python string helpers -/

/-- Whitespace characters stripped by Python's `str.strip()` (ASCII range;
the inputs treated in this development contain no exotic Unicode spaces). -/
def isPySpace (c : Char) : Bool :=
  c = ' ' || c = '\t' || c = '\n' || c = '\x0d' || c = '\x0b' || c = '\x0c'

/-- Python `str.strip()` on a character list. -/
def pyStripList (l : List Char) : List Char :=
  ((l.dropWhile isPySpace).reverse.dropWhile isPySpace).reverse

/-- Python `str.strip()`. -/
def pyStrip (s : String) : String := String.mk (pyStripList s.data)

/-- Python `str.lower()` (ASCII; HTTP method names are ASCII). -/
def pyLower (s : String) : String := String.mk (s.data.map Char.toLower)

/-- Python `str.upper()` (ASCII). -/
def pyUpper (s : String) : String := String.mk (s.data.map Char.toUpper)

/-- Python `str.rstrip("\n")`: remove all trailing newline characters. -/
def rstripNL (s : String) : String :=
  String.mk (s.data.reverse.dropWhile (· = '\n')).reverse

/-- Python `s.startswith(p)`, via character lists (kernel-reducible). -/
def pyStartsWith (s p : String) : Bool := p.data.isPrefixOf s.data

/-- Python `s.endswith(p)`, via character lists (kernel-reducible). -/
def pyEndsWith (s p : String) : Bool := p.data.reverse.isPrefixOf s.data.reverse

/-- A character matched by the regex class `[A-Za-z0-9_]`. -/
def isWordChar (c : Char) : Bool := c.isAlpha || c.isDigit || c = '_'

/-- Clamp one Python slice index to an actual list offset
(negative indices count from the end). -/
def pySliceIdx (len : Nat) (i : Int) : Nat :=
  if i < 0 then (max 0 (len + i)).toNat else min i.toNat len

/-- Python list slicing `l[s:e]` with integer bounds. -/
def pySlice {α : Type} (l : List α) (s e : Int) : List α :=
  (l.take (pySliceIdx l.length e)).drop (pySliceIdx l.length s)

/-- Python list slicing with natural-number bounds (`l[s:e]`, `0 ≤ s`). -/
def pySliceNat {α : Type} (l : List α) (s e : Nat) : List α :=
  (l.take e).drop s

/-! ## `backend/core/normalize.py`

`normalize_path` applies, in order: `strip`, a leading-slash guard, and the
four `re.sub` rewrites
`:([A-Za-z0-9_]+) → {name}`, `<[^:>]*:([^>]+)> → {name}`,
`<([^>]+)> → {name}`, `//+ → /`.
Each `re.sub` is embedded as a left-to-right, non-overlapping scan with the
exact match condition of its pattern (all four patterns are backtracking-free
in the sense that greedy matching of their character classes is forced, so
the scan below is the precise semantics of the Python call). -/

/-- One `re.sub(r":([A-Za-z0-9_]+)", r"{\1}", ·)` pass: at each `:` followed
by a nonempty run of word characters, replace the colon and the run by the
braced run; scanning resumes after the match. -/
def colonGo : Nat → List Char → List Char
  | 0, l => l
  | _+1, [] => []
  | fuel+1, ':' :: cs =>
      let w := cs.takeWhile isWordChar
      let r := cs.dropWhile isWordChar
      if w.isEmpty then ':' :: colonGo fuel cs
      else '{' :: (w ++ '}' :: colonGo fuel r)
  | fuel+1, c :: cs => c :: colonGo fuel cs

def colonSub (l : List Char) : List Char := colonGo l.length l

/-- Attempt to match the tail of `<[^:>]*:([^>]+)>` (everything after the
`<`): a run without `:`/`>`, a `:`, a nonempty run without `>`, then `>`.
Returns the capture and the rest of the input. -/
def typedTry (cs : List Char) : Option (List Char × List Char) :=
  match cs.dropWhile (fun c => !(c = ':' || c = '>')) with
  | ':' :: r2 =>
      let v := r2.takeWhile (· ≠ '>')
      match r2.dropWhile (· ≠ '>') with
      | '>' :: r4 => if v.isEmpty then none else some (v, r4)
      | _ => none
  | _ => none

/-- One `re.sub(r"<[^:>]*:([^>]+)>", r"{\1}", ·)` pass. -/
def typedGo : Nat → List Char → List Char
  | 0, l => l
  | _+1, [] => []
  | fuel+1, '<' :: cs =>
      match typedTry cs with
      | some (v, r) => '{' :: (v ++ '}' :: typedGo fuel r)
      | none => '<' :: typedGo fuel cs
  | fuel+1, c :: cs => c :: typedGo fuel cs

def typedAngleSub (l : List Char) : List Char := typedGo l.length l

/-- Attempt to match the tail of `<([^>]+)>`: a nonempty run without `>`,
then `>`. -/
def angleTry (cs : List Char) : Option (List Char × List Char) :=
  let v := cs.takeWhile (· ≠ '>')
  match cs.dropWhile (· ≠ '>') with
  | '>' :: r2 => if v.isEmpty then none else some (v, r2)
  | _ => none

/-- One `re.sub(r"<([^>]+)>", r"{\1}", ·)` pass. -/
def angleGo : Nat → List Char → List Char
  | 0, l => l
  | _+1, [] => []
  | fuel+1, '<' :: cs =>
      match angleTry cs with
      | some (v, r) => '{' :: (v ++ '}' :: angleGo fuel r)
      | none => '<' :: angleGo fuel cs
  | fuel+1, c :: cs => c :: angleGo fuel cs

def angleSub (l : List Char) : List Char := angleGo l.length l

/-- One `re.sub(r"//+", "/", ·)` pass: every maximal run of slashes is
replaced by a single slash (runs of length one are left as-is, which the
same equation covers). -/
def collapseGo : Nat → List Char → List Char
  | 0, l => l
  | _+1, [] => []
  | fuel+1, '/' :: cs => '/' :: collapseGo fuel (cs.dropWhile (· = '/'))
  | fuel+1, c :: cs => c :: collapseGo fuel cs

def collapseSlashes (l : List Char) : List Char := collapseGo l.length l

/-- `normalize_path` from `backend/core/normalize.py`: strip, ensure a
leading slash, rewrite `:name`, `<type:name>`, `<name>` parameter syntax to
brace syntax, collapse repeated slashes. -/
def normalize_path (raw : String) : String :=
  let p := pyStripList raw.data
  let p := if p.head? = some '/' then p else '/' :: p
  let p := colonSub p
  let p := typedAngleSub p
  let p := angleSub p
  String.mk (collapseSlashes p)

/-- One step of `re.findall(r"{([^}]+)}", ·)`: match a nonempty brace-free
run terminated by `}`. -/
def braceTry (cs : List Char) : Option (List Char × List Char) :=
  let v := cs.takeWhile (· ≠ '}')
  match cs.dropWhile (· ≠ '}') with
  | '}' :: r2 => if v.isEmpty then none else some (v, r2)
  | _ => none

/-- `_PARAM_RE.findall`: all captures of `{([^}]+)}`, left to right. -/
def braceFindGo : Nat → List Char → List (List Char)
  | 0, _ => []
  | _+1, [] => []
  | fuel+1, '{' :: cs =>
      match braceTry cs with
      | some (v, r) => v :: braceFindGo fuel r
      | none => braceFindGo fuel cs
  | fuel+1, _ :: cs => braceFindGo fuel cs

def braceFind (l : List Char) : List (List Char) := braceFindGo l.length l

/-- The `{"type": "string"}` schema object of a path parameter. -/
structure ParamSchema where
  «type» : String
deriving DecidableEq, Repr

/-- One element of the list returned by `extract_path_params`:
`{"name": n, "in": "path", "required": True, "schema": {"type": "string"}}`. -/
structure ParamDescriptor where
  name : String
  «in» : String
  required : Bool
  schema : ParamSchema
deriving DecidableEq, Repr

/-- `extract_path_params` from `backend/core/normalize.py`. -/
def extract_path_params (path : String) : List ParamDescriptor :=
  (braceFind path.data).map
    (fun n => ⟨String.mk n, "path", true, ⟨"string"⟩⟩)

/-! ## JSON values

A generic JSON value, used to model the loosely typed `dict`/`list` payloads
(schemas, response maps, operation objects) that the pipeline passes around.
Objects are insertion-ordered key/value lists, exactly like Python dicts;
`dictSet` mirrors `d[k] = v` (update in place, else append) and `dictGet`
mirrors `d[k]` / `d.get(k)`. -/

inductive JValue where
  | null
  | bool (b : Bool)
  | str (s : String)
  | num (n : Int)
  | arr (elems : List JValue)
  | obj (fields : List (String × JValue))

/-- Python `d.get(k)` on an insertion-ordered dict. -/
def dictGet {α : Type} : List (String × α) → String → Option α
  | [], _ => none
  | (k', v) :: rest, k => if k' = k then some v else dictGet rest k

/-- Python `d[k] = v`: replace the value at an existing key in place,
otherwise append the new pair. -/
def dictSet {α : Type} : List (String × α) → String → α → List (String × α)
  | [], k, v => [(k, v)]
  | (k', v') :: rest, k, v =>
      if k' = k then (k, v) :: rest else (k', v') :: dictSet rest k v

/-- Python `d.setdefault(k, v)`. -/
def dictSetdefault {α : Type} (d : List (String × α)) (k : String) (v : α) :
    List (String × α) :=
  match dictGet d k with
  | some _ => d
  | none => d ++ [(k, v)]

/-- Whitespace skipped between JSON tokens. -/
def jsonWs (c : Char) : Bool := c = ' ' || c = '\t' || c = '\n' || c = '\x0d'

/-- Parse the tail of a JSON string literal (after the opening quote).
Common escapes are translated; `\u` escapes are outside the modelled
fragment, as are inputs on which `json.loads` itself fails. -/
def parseJString : Nat → List Char → Option (List Char × List Char)
  | 0, _ => none
  | _+1, [] => none
  | fuel+1, c :: cs =>
      if c = '"' then some ([], cs)
      else if c = '\\' then
        match cs with
        | [] => none
        | e :: cs' =>
            let dec : Option Char :=
              if e = '"' then some '"'
              else if e = '\\' then some '\\'
              else if e = '/' then some '/'
              else if e = 'n' then some '\n'
              else if e = 't' then some '\t'
              else if e = 'r' then some '\x0d'
              else if e = 'b' then some '\x08'
              else if e = 'f' then some '\x0c'
              else none
            match dec with
            | some d =>
                match parseJString fuel cs' with
                | some (s, rest) => some (d :: s, rest)
                | none => none
            | none => none
      else
        match parseJString fuel cs with
        | some (s, rest) => some (c :: s, rest)
        | none => none

/-- Parse a JSON integer (a leading `-` then digits); numbers with a
fraction or exponent are outside the modelled fragment. -/
def parseJInt (cs : List Char) : Option (Int × List Char) :=
  let (neg, cs') := match cs with
    | '-' :: t => (true, t)
    | _ => (false, cs)
  let ds := cs'.takeWhile Char.isDigit
  let rest := cs'.dropWhile Char.isDigit
  if ds.isEmpty then none
  else
    match rest with
    | '.' :: _ => none
    | 'e' :: _ => none
    | 'E' :: _ => none
    | _ =>
        let n : Nat := ds.foldl (fun acc c => acc * 10 + (c.toNat - 48)) 0
        some (if neg then -(n : Int) else (n : Int), rest)

mutual

/-- Recursive-descent JSON value parser (the model of `json.loads`'s
grammar), with explicit fuel. -/
def parseJ : Nat → List Char → Option (JValue × List Char)
  | 0, _ => none
  | fuel+1, cs0 =>
      let cs := cs0.dropWhile jsonWs
      match cs with
      | 'n' :: 'u' :: 'l' :: 'l' :: r => some (.null, r)
      | 't' :: 'r' :: 'u' :: 'e' :: r => some (.bool true, r)
      | 'f' :: 'a' :: 'l' :: 's' :: 'e' :: r => some (.bool false, r)
      | '"' :: r =>
          match parseJString fuel r with
          | some (s, rest) => some (.str (String.mk s), rest)
          | none => none
      | '[' :: r => parseJArr fuel r
      | '{' :: r => parseJObj fuel r
      | _ =>
          match parseJInt cs with
          | some (n, rest) => some (.num n, rest)
          | none => none

/-- Parse the elements of a JSON array (after the opening bracket). -/
def parseJArr : Nat → List Char → Option (JValue × List Char)
  | 0, _ => none
  | fuel+1, cs0 =>
      let cs := cs0.dropWhile jsonWs
      match cs with
      | ']' :: r => some (.arr [], r)
      | _ =>
          match parseJ fuel cs with
          | some (v, rest) =>
              match parseJArrTail fuel rest with
              | some (vs, rest') => some (.arr (v :: vs), rest')
              | none => none
          | none => none

/-- Parse `, value`* `]`. -/
def parseJArrTail : Nat → List Char → Option (List JValue × List Char)
  | 0, _ => none
  | fuel+1, cs0 =>
      let cs := cs0.dropWhile jsonWs
      match cs with
      | ']' :: r => some ([], r)
      | ',' :: r =>
          match parseJ fuel r with
          | some (v, rest) =>
              match parseJArrTail fuel rest with
              | some (vs, rest') => some (v :: vs, rest')
              | none => none
          | none => none
      | _ => none

/-- Parse the members of a JSON object (after the opening brace); the member
list is folded into a dict with `dictSet`, so duplicate keys overwrite
earlier ones exactly as in `json.loads`. -/
def parseJObj : Nat → List Char → Option (JValue × List Char)
  | 0, _ => none
  | fuel+1, cs0 =>
      let cs := cs0.dropWhile jsonWs
      match cs with
      | '}' :: r => some (.obj [], r)
      | '"' :: r =>
          match parseJString fuel r with
          | some (k, rest) =>
              match (rest.dropWhile jsonWs) with
              | ':' :: rest2 =>
                  match parseJ fuel rest2 with
                  | some (v, rest3) =>
                      match parseJObjTail fuel rest3 with
                      | some (ms, rest4) =>
                          some (.obj (((String.mk k, v) :: ms).foldl
                                  (fun d kv => dictSet d kv.1 kv.2) []), rest4)
                      | none => none
                  | none => none
              | _ => none
          | none => none
      | _ => none

/-- Parse `, "key": value`* `}` into the raw member list, in textual order. -/
def parseJObjTail : Nat → List Char → Option (List (String × JValue) × List Char)
  | 0, _ => none
  | fuel+1, cs0 =>
      let cs := cs0.dropWhile jsonWs
      match cs with
      | '}' :: r => some ([], r)
      | ',' :: r =>
          match (r.dropWhile jsonWs) with
          | '"' :: r2 =>
              match parseJString fuel r2 with
              | some (k, rest) =>
                  match (rest.dropWhile jsonWs) with
                  | ':' :: rest2 =>
                      match parseJ fuel rest2 with
                      | some (v, rest3) =>
                          match parseJObjTail fuel rest3 with
                          | some (ms, rest4) =>
                              some ((String.mk k, v) :: ms, rest4)
                          | none => none
                      | none => none
                  | _ => none
              | none => none
          | _ => none
      | _ => none

end

/-- The model of `json.loads`: parse one JSON value and require only
whitespace to remain. -/
def json_loads (s : String) : Option JValue :=
  match parseJ (s.length + 1) s.data with
  | some (v, rest) => if (rest.dropWhile jsonWs).isEmpty then some v else none
  | none => none

/-! ## `backend/core/llm.py` — JSON recovery and route enrichment

The LLM call itself is an external collaborator: each embedded function
takes the text returned by the completion service as an argument.  The
logic the repository applies to that text (`json.loads`, the
`re.search(r"\{.*\}", text, re.S)` recovery, and the pydantic validation of
the `Enrichment` shape) is translated directly. -/

/-- The span matched by `re.search(r"\{.*\}", text, re.S)`: from the first
`{` to the last `}` after it (DOTALL makes `.` cross newlines; greedy `.*`
reaches the last closing brace). -/
def braceSpan (l : List Char) : Option (List Char) :=
  match l.dropWhile (· ≠ '{') with
  | '{' :: tail =>
      match tail.reverse.dropWhile (· ≠ '}') with
      | '}' :: midRev => some ('{' :: (midRev.reverse ++ ['}']))
      | _ => none
  | _ => none

/-- `gemini_json` from `backend/core/llm.py`, given the text the model
returned (`resp.text or "{}"` is the first line): strict parse, then
brace-span recovery, then failure (`none` models the re-raised exception). -/
def gemini_json (resp_text : String) : Option JValue :=
  let text := if resp_text = "" then "\x7b\x7d" else resp_text
  match json_loads text with
  | some v => some v
  | none =>
      match braceSpan text.data with
      | some sub => json_loads (String.mk sub)
      | none => none

/-- The `Enrichment` pydantic model from `backend/core/types.py`: all four
fields optional and nullable. -/
structure Enrichment where
  summary : Option String
  auth : Option String
  requestBody : Option (List (String × JValue))
  responses : Option (List (String × JValue))

/-- Validation of one field of type `Optional[str]`: absent or `null` give
`none`; a string gives `some`; any other shape is a validation error. -/
def validateOptStr (d : List (String × JValue)) (k : String) :
    Option (Option String) :=
  match dictGet d k with
  | none => some none
  | some .null => some none
  | some (.str s) => some (some s)
  | some _ => none

/-- Validation of one field of type `Optional[Dict[str, Any]]`. -/
def validateOptDict (d : List (String × JValue)) (k : String) :
    Option (Option (List (String × JValue))) :=
  match dictGet d k with
  | none => some none
  | some .null => some none
  | some (.obj fs) => some (some fs)
  | some _ => none

/-- `Enrichment(**data)`: succeeds only when `data` is an object whose
`summary`/`auth` fields (if present) are strings or null and whose
`requestBody`/`responses` fields (if present) are objects or null; extra
keys are ignored.  `none` models the `ValidationError`/`TypeError` raised
otherwise. -/
def validateEnrichment : JValue → Option Enrichment
  | .obj fs =>
      match validateOptStr fs "summary", validateOptStr fs "auth",
            validateOptDict fs "requestBody", validateOptDict fs "responses" with
      | some s, some a, some rb, some rs => some ⟨s, a, rb, rs⟩
      | _, _, _, _ => none
  | _ => none

/-- The all-null `Enrichment` built in the `except` branch of
`enrich_route`. -/
def allNullEnrichment : Enrichment := ⟨none, none, none, none⟩

/-- The `Snippet` pydantic model from `backend/core/types.py`.  `start` and
`end` are Python ints. -/
structure Snippet where
  file : String
  start : Int
  «end» : Int
  text : String
deriving DecidableEq, Repr

/-- `enrich_route` from `backend/core/llm.py`, given the text returned by
the completion service for this route.  The `try` in the source wraps only
the `Enrichment(**data)` construction: a validation failure degrades to the
all-null enrichment, while a `gemini_json` failure propagates (`none`
models the uncaught exception).  The snippet, method, and raw path only
shape the prompt; they do not influence this control flow. -/
def enrich_route (snippet : Snippet) (method raw_path : String)
    (resp_text : String) : Option Enrichment :=
  match gemini_json resp_text with
  | none => none
  | some data => some ((validateEnrichment data).getD allNullEnrichment)

/-! ## `backend/core/reader.py`

`_safe_read_lines` hands `read_snippet` the file's lines (each line keeps
its trailing newline, as `readlines` does); the embedding therefore takes
the line list directly — the claim under study quantifies over files that
exist, and `open(..., errors="ignore")` cannot fail on them. -/

/-- `read_snippet` from `backend/core/reader.py`:
`start = max(1, center_line - radius)`, `end = min(len(lines),
center_line + radius)`, `text = "".join(lines[start-1:end])`. -/
def read_snippet (lines : List String) (file : String)
    (center_line radius : Int) : Snippet :=
  let start : Int := max 1 (center_line - radius)
  let e : Int := min (lines.length : Int) (center_line + radius)
  ⟨file, start, e, String.join (pySlice lines (start - 1) e)⟩

/-! ## `backend/core/spec.py` — OpenAPI skeleton and route merging

The document's top level has a statically known shape
(`openapi`/`info`/`servers`/`paths`), so it is a structure; below `paths`
everything is insertion-ordered dicts of `JValue`, as in the source.  A
route definition enters `merge_route` as `RouteDef(...).model_dump()`, a
plain dict; `RouteIn` carries the keys `merge_route` reads (`path`,
`method`, and the `.get(...)` keys, whose `or`-defaults also treat the
empty string / list / dict as absent, exactly like Python truthiness). -/

/-- The dict fields of a route definition that `merge_route` reads. -/
structure RouteIn where
  method : String
  path : String
  summary : Option String
  parameters : Option (List JValue)
  requestBody : Option JValue
  responses : Option (List (String × JValue))

/-- The OpenAPI document: `build_openapi_skeleton`'s fixed top-level keys,
with `paths` mapping a path to a dict from lowercase method to operation
object. -/
structure OpenApiDoc where
  openapi : String
  info : JValue
  servers : JValue
  paths : List (String × List (String × JValue))

/-- `build_openapi_skeleton` from `backend/core/spec.py` (an empty or
absent server list falls back to `["http://localhost"]`). -/
def build_openapi_skeleton (title : String) (version : String)
    (servers : Option (List String)) : OpenApiDoc :=
  let svs := match servers with
    | some (s :: ss) => s :: ss
    | _ => ["http://localhost"]
  ⟨"3.0.3",
   .obj [("title", .str title), ("version", .str version)],
   .arr (svs.map (fun s => .obj [("url", .str s)])),
   []⟩

/-- `_default_response` from `backend/core/spec.py`. -/
def _default_response : JValue :=
  .obj [("description", .str "OK"),
        ("content", .obj [("application/json",
            .obj [("schema", .obj [("type", .str "object"),
                                   ("additionalProperties", .bool true)])])])]

/-- The operation object `merge_route` builds for a route:
summary (defaulted to `"METHOD path"` when falsy), parameters (defaulted to
`[]`), responses (defaulted to the single 200/OK permissive response when
falsy), and a not-required JSON request body when one was supplied. -/
def routeEntry (route : RouteIn) : JValue :=
  let method := pyLower route.method
  let summaryVal : String :=
    match route.summary with
    | some s => if s = "" then pyUpper method ++ " " ++ route.path else s
    | none => pyUpper method ++ " " ++ route.path
  let params : List JValue :=
    match route.parameters with
    | some ps => ps
    | none => []
  let responses : List (String × JValue) :=
    match route.responses with
    | some (r :: rs) => r :: rs
    | _ => [("200", _default_response)]
  let base : List (String × JValue) :=
    [("summary", .str summaryVal), ("parameters", .arr params),
     ("responses", .obj responses)]
  match route.requestBody with
  | some rb =>
      .obj (dictSet base "requestBody"
        (.obj [("required", .bool false),
               ("content", .obj [("application/json",
                   .obj [("schema", rb)])])]))
  | none => .obj base

/-- `merge_route` from `backend/core/spec.py`:
`spec["paths"].setdefault(path, {})` then
`spec["paths"][path][method.lower()] = entry`. -/
def merge_route (spec : OpenApiDoc) (route : RouteIn) : OpenApiDoc :=
  let path := route.path
  let method := pyLower route.method
  let paths1 := dictSetdefault spec.paths path []
  let inner := (dictGet paths1 path).getD []
  let paths2 := dictSet paths1 path (dictSet inner method (routeEntry route))
  ⟨spec.openapi, spec.info, spec.servers, paths2⟩

/-! ## `backend/core/searcher.py` — pattern search

The Python `re` engine, `glob.glob` expansion, and the filesystem are
external collaborators, passed in as `compileRe` (returning `none` exactly
when `re.compile` raises `re.error`, and otherwise the compiled
case-insensitive line test), `globF` (glob pattern to file list), and
`fileLines` (the `readlines` of a file opened with `errors="ignore"`). -/

/-- The `SearchQuery` pydantic model from `backend/core/types.py`. -/
structure SearchQuery where
  regex : String
  glob : String
  why : String
deriving DecidableEq, Repr

/-- The `Match` pydantic model from `backend/core/types.py`. -/
structure Match where
  file : String
  line : Nat
  «match» : String
  before : List String
  after : List String
deriving DecidableEq, Repr

/-- Python `os.path.join(a, b)` for the two-argument form used here. -/
def pyPathJoin (a b : String) : String :=
  if pyStartsWith b "/" then b
  else if a = "" then b
  else if pyEndsWith a "/" then a ++ b
  else a ++ "/" ++ b

/-- The scan loop of `_grep_file`: 1-based line numbers, context slices
`lines[max(0, i-context-1):i-1]` and `lines[i:min(len, i+context)]` with
newline-stripped context lines, and a break as soon as the match list has
reached `limit` entries. -/
def grepGo (pat : String → Bool) (allLines : List String) (path : String)
    (context limit : Nat) : Nat → List String → Nat → List Match
  | _, [], _ => []
  | i, line :: rest, n =>
      if pat line then
        let start : Nat := i - (context + 1)
        let e : Nat := min allLines.length (i + context)
        let m : Match := ⟨path, i, pyStrip line,
          (pySliceNat allLines start (i - 1)).map rstripNL,
          (pySliceNat allLines i e).map rstripNL⟩
        if n + 1 ≥ limit then [m]
        else m :: grepGo pat allLines path context limit (i + 1) rest (n + 1)
      else grepGo pat allLines path context limit (i + 1) rest n

/-- `_grep_file` from `backend/core/searcher.py`: a malformed regex yields
no matches; otherwise scan the file's lines from line 1. -/
def _grep_file (compileRe : String → Option (String → Bool))
    (fileLines : String → List String) (path : String) (regex : String)
    (context limit : Nat) : List Match :=
  match compileRe regex with
  | none => []
  | some pat =>
      let lines := fileLines path
      grepGo pat lines path context limit 1 lines 0

/-- The per-query file loop of `multi_search`: extend the accumulator with
each file's matches and stop as soon as it has reached `limit` entries. -/
def msAcc (compileRe : String → Option (String → Bool))
    (fileLines : String → List String) (regex : String)
    (context limit : Nat) : List String → List Match → List Match
  | [], acc => acc
  | f :: fs, acc =>
      let acc' := acc ++ _grep_file compileRe fileLines f regex context limit
      if acc'.length ≥ limit then acc'
      else msAcc compileRe fileLines regex context limit fs acc'

/-- `multi_search` from `backend/core/searcher.py`.  The source returns a
dict keyed by the index produced by `enumerate(queries)`; since those keys
are exactly `0, 1, …`, the mapping is represented positionally. -/
def multi_search (repo_dir : String)
    (globF : String → List String)
    (compileRe : String → Option (String → Bool))
    (fileLines : String → List String)
    (queries : List SearchQuery) (context limit : Nat) : List (List Match) :=
  queries.map (fun q =>
    msAcc compileRe fileLines q.regex context limit
      (globF (pyPathJoin repo_dir q.glob)) [])

/-- `FALLBACK_QUERIES` from `backend/core/searcher.py`. -/
def FALLBACK_QUERIES : List SearchQuery :=
  [⟨"\\b(app|router)\\.(get|post|put|patch|delete|options|head|all)\\s*\\(",
    "**/*.\x7bjs,ts,jsx,tsx\x7d", "Generic JS HTTP methods"⟩,
   ⟨"express\\.Router\\(", "**/*.\x7bjs,ts,jsx,tsx\x7d", "Express routers"⟩,
   ⟨"@Controller|@Get\\(|@Post\\(|@Put\\(|@Delete\\(", "**/*.\x7bts,tsx\x7d",
    "NestJS annotations"⟩,
   ⟨"@\\w+\\.route\\(", "**/*.py", "Flask route decorator"⟩,
   ⟨"@app\\.(get|post|put|patch|delete)\\(", "**/*.py", "FastAPI decorators"⟩,
   ⟨"\\b(POST|GET|PUT|PATCH|DELETE)\\s*\\(", "**/*.go", "Go std http handlers"⟩,
   ⟨"\\b(Handle|HandleFunc)\\s*\\(", "**/*.go", "Go mux/chi"⟩,
   ⟨"@RequestMapping|@GetMapping|@PostMapping|@PutMapping|@DeleteMapping",
    "**/*.java", "Spring annotations"⟩,
   ⟨"resources\\s+:|get\\s+[\x27\"]|post\\s+[\x27\"]", "**/*.rb", "Rails routes"⟩]

/-! ## `backend/app.py` — the search phase of `post_generate`

The slice of `post_generate` that runs the planned searches, applies the
zero-match fallback policy, and computes the `rounds_used` field of the
response (`rounds_used=1 + int(used_fallback)`).  The planner's queries —
an LLM product — and the search collaborators are arguments. -/

/-- The fields of the generate response this slice determines
(`matchesMap` is the source's `matches` dict, positionally). -/
structure SearchPhaseResult where
  matchesMap : List (List Match)
  used_fallback : Bool
  rounds_used : Nat

/-- Lines 52–61 and 113 of `backend/app.py`: run the planned queries; if
the per-query match lists sum to zero matches, re-run with
`FALLBACK_QUERIES`; report `1 + int(used_fallback)` search rounds. -/
def post_generate_search (repo_dir : String)
    (globF : String → List String)
    (compileRe : String → Option (String → Bool))
    (fileLines : String → List String)
    (planned : List SearchQuery) (context_lines : Nat) : SearchPhaseResult :=
  let ms := multi_search repo_dir globF compileRe fileLines planned
    context_lines 50
  let used_fallback := (ms.map List.length).sum = 0
  let ms := if used_fallback then
      multi_search repo_dir globF compileRe fileLines FALLBACK_QUERIES
        context_lines 50
    else ms
  ⟨ms, used_fallback, 1 + (if used_fallback then 1 else 0)⟩

/-! ## `backend/core/indexer.py` — inventory building

The filesystem is modelled as a tree of directories; a file records the
result of `os.path.getsize` (`none` when it raises `OSError`) and the
result of opening and reading it (`none` when any of that raises, the case
the bare `except Exception` in `_read_head_tail` catches).  `os.walk` with
the source's in-place pruning of `dirs` is realised as a top-down worklist
traversal; its fuel is the `sizeOf` of the worklist's directories, which
strictly bounds the number of directories visited, so the traversal is
fuel-independent in every reachable state. -/

/-- A directory entry that is a file. -/
structure FSFile where
  name : String
  size : Option Nat
  content : Option (List Char)
deriving DecidableEq

mutual

/-- A directory: its files and its named subdirectories. -/
inductive FSDir where
  | mk (files : List FSFile) (subdirs : FSDirs)

/-- A (listdir-ordered) list of named subdirectories. -/
inductive FSDirs where
  | nil
  | cons (name : String) (dir : FSDir) (rest : FSDirs)

end

mutual

/-- A structural measure of a directory tree: one unit per directory. -/
def dirMeasure : FSDir → Nat
  | .mk _ sd => 1 + dirsMeasure sd

def dirsMeasure : FSDirs → Nat
  | .nil => 0
  | .cons _ d rest => dirMeasure d + dirsMeasure rest

end

/-- `IGNORE_DIRS` from `backend/core/indexer.py`. -/
def IGNORE_DIRS : List String :=
  [".git", ".hg", ".svn", "node_modules", "dist", "build", ".next", ".nuxt",
   ".venv", "venv", "__pycache__", "target", "out"]

/-- `TEXT_LIKE` from `backend/core/indexer.py`. -/
def TEXT_LIKE : List String :=
  [".js", ".jsx", ".ts", ".tsx", ".py", ".go", ".java", ".rb", ".php",
   ".cs", ".kt", ".scala", ".rs", ".c", ".cpp", ".mjs", ".json", ".yml",
   ".yaml", ".md", ".txt"]

/-- `_should_skip_dir` from `backend/core/indexer.py`. -/
def _should_skip_dir (name : String) : Bool :=
  name ∈ IGNORE_DIRS || pyStartsWith name "."

/-- `_is_text_ext` from `backend/core/indexer.py`. -/
def _is_text_ext (ext : String) (allowed_exts : Option (List String)) : Bool :=
  match allowed_exts with
  | some es => ext ∈ es
  | none => ext ∈ TEXT_LIKE

/-- `os.path.splitext(name)[1]` for a path without separators: the suffix
from the last dot, unless every character before that dot is itself a dot
(so `".gitignore"` has no extension). -/
def splitextExt (name : String) : String :=
  let cs := name.data
  let afterRev := cs.reverse.takeWhile (· ≠ '.')
  if afterRev.length = cs.length then ""
  else
    let before := cs.take (cs.length - afterRev.length - 1)
    if before.any (· ≠ '.') then String.mk ('.' :: afterRev.reverse) else ""

/-- `_read_head_tail` from `backend/core/indexer.py`: on any read failure
return `("", "")`; otherwise the head is the first `min(max_bytes, 8192)`
bytes and the tail is the last `min(max_bytes, 8192)` bytes, except that a
file smaller than that chunk is re-read whole (the `seek` from the end
raises `OSError`).  Decoding with `errors="ignore"` is the identity here:
content is modelled post-decoding. -/
def _read_head_tail (content : Option (List Char)) (max_bytes : Nat) :
    String × String :=
  match content with
  | none => ("", "")
  | some bytes =>
      let k := min max_bytes 8192
      let head := bytes.take k
      let tail := if k ≤ bytes.length then bytes.drop (bytes.length - k)
        else bytes
      (String.mk head, String.mk tail)

/-- The `FileIndex` pydantic model from `backend/core/types.py`. -/
structure FileIndex where
  path : String
  ext : String
  size : Nat
  head : String
  tail : String
deriving DecidableEq, Repr

/-- One `(root, files)` station of the walk: the directory's path relative
to the repository root (as components) and its files. -/
def WalkEntry : Type := List String × List FSFile

/-- Fuel measure for the walk worklist: total number of pending
directories. -/
def wlMeasure (wl : List (List String × FSDir)) : Nat :=
  (wl.map (fun p => dirMeasure p.2)).sum

/-- The pruning step `dirs[:] = [d for d in dirs if not
_should_skip_dir(d)]` performed by `build_inventory` on each yielded
directory list, combined with extending the walk's relative path. -/
def pruneSubdirs (rel : List String) : FSDirs → List (List String × FSDir)
  | .nil => []
  | .cons n d rest =>
      if _should_skip_dir n then pruneSubdirs rel rest
      else (rel ++ [n], d) :: pruneSubdirs rel rest

/-- Top-down `os.walk` as consumed by `build_inventory`: yield the current
directory's files, then walk the surviving subdirectories in order. -/
def walkGo : Nat → List (List String × FSDir) → List WalkEntry
  | 0, _ => []
  | _+1, [] => []
  | fuel+1, (rel, .mk files subdirs) :: rest =>
      (rel, files) :: walkGo fuel (pruneSubdirs rel subdirs ++ rest)

/-- The pruned walk of a repository rooted at `root`. -/
def walkFS (root : FSDir) : List WalkEntry :=
  walkGo (dirMeasure root) [([], root)]

/-- The files loop of `build_inventory` for one directory: skip files whose
size cannot be stat-ed, filter by extension, read head/tail, and append a
`FileIndex`; the boolean reports whether the `count >= max_files` early
`return` fired. -/
def invStep (exts : Option (List String)) (max_files max_bytes : Nat)
    (rel : List String) :
    List FSFile → Nat → List FileIndex → List FileIndex × Nat × Bool
  | [], count, acc => (acc, count, false)
  | f :: rest, count, acc =>
      if max_files ≤ count then (acc, count, true)
      else
        match f.size with
        | none => invStep exts max_files max_bytes rel rest count acc
        | some size =>
            let ext := pyLower (splitextExt f.name)
            if !(_is_text_ext ext exts) then
              invStep exts max_files max_bytes rel rest count acc
            else
              let ht := _read_head_tail f.content max_bytes
              let relPath := String.intercalate "/" (rel ++ [f.name])
              invStep exts max_files max_bytes rel rest (count + 1)
                (acc ++ [⟨relPath, ext, size, ht.1, ht.2⟩])

/-- The walk loop of `build_inventory`: process each directory's files in
walk order, stopping everything once the file-count cap fires. -/
def invWalk (exts : Option (List String)) (max_files max_bytes : Nat) :
    List WalkEntry → Nat → List FileIndex → List FileIndex
  | [], _, acc => acc
  | (rel, files) :: rest, count, acc =>
      match invStep exts max_files max_bytes rel files count acc with
      | (acc', count', stopped) =>
          if stopped then acc'
          else invWalk exts max_files max_bytes rest count' acc'

/-- `build_inventory` from `backend/core/indexer.py`. -/
def build_inventory (root : FSDir) (exts : Option (List String))
    (max_files max_bytes : Nat) : List FileIndex :=
  invWalk exts max_files max_bytes (walkFS root) 0 []

/-! ## Support definitions for the verification

Field accessor for object values, Boolean predicates describing normal
forms of normalized paths, the blanking relation used to characterise how
unreadable files are inventoried, and the concrete inputs used by the
counterexamples and witnesses below. -/

/-- Read a key of a `JValue` object. -/
def jGet (v : JValue) (k : String) : Option JValue :=
  match v with
  | .obj fs => dictGet fs k
  | _ => none

/-- No `:` immediately followed by a word character anywhere in the list
(the colon rewrite of `normalize_path` finds nothing to do). -/
def noColonWord : List Char → Bool
  | [] => true
  | [_] => true
  | a :: b :: cs => !(a = ':' && isWordChar b) && noColonWord (b :: cs)

/-- No two adjacent slashes (the slash collapsing of `normalize_path`
finds nothing to do). -/
def noDoubleSlash : List Char → Bool
  | [] => true
  | [_] => true
  | a :: b :: cs => !(a = '/' && b = '/') && noDoubleSlash (b :: cs)

/-- The last character, if any, is not Python whitespace. -/
def lastNotSpace (l : List Char) : Prop :=
  ∀ c, l.getLast? = some c → isPySpace c = false

/-- Two files that differ at most in that an unreadable content (`none`)
on the left is an empty readable content on the right. -/
def FileBlank (f1 f2 : FSFile) : Prop :=
  f1.name = f2.name ∧ f1.size = f2.size ∧
    (f2.content = f1.content ∨ (f1.content = none ∧ f2.content = some []))

mutual

/-- Directory trees equal up to blanking unreadable file contents. -/
inductive DirBlank : FSDir → FSDir → Prop where
  | mk : ∀ fs1 fs2 sd1 sd2, List.Forall₂ FileBlank fs1 fs2 →
      SubdirsBlank sd1 sd2 → DirBlank (.mk fs1 sd1) (.mk fs2 sd2)

/-- Subdirectory lists equal up to blanking unreadable file contents. -/
inductive SubdirsBlank : FSDirs → FSDirs → Prop where
  | nil : SubdirsBlank .nil .nil
  | cons : ∀ n d1 d2 r1 r2, DirBlank d1 d2 → SubdirsBlank r1 r2 →
      SubdirsBlank (.cons n d1 r1) (.cons n d2 r2)

end

/-- A glob collaborator returning two files (counterexample input). -/
def cexGlob : String → List String := fun _ => ["f1", "f2"]

/-- A regex collaborator whose compiled pattern matches every line
(counterexample input). -/
def cexCompile : String → Option (String → Bool) := fun _ => some (fun _ => true)

/-- A filesystem collaborator: `f1` has one line, every other file two
(counterexample input). -/
def cexLines : String → List String :=
  fun f => if f = "f1" then ["a\n"] else ["a\n", "b\n"]

/-- A glob collaborator that finds no files (witness input). -/
def emptyGlob : String → List String := fun _ => []

/-- A root directory holding one stat-able but unreadable file
(counterexample input). -/
def cexRoot : FSDir := .mk [⟨"a.py", some 10, none⟩] .nil

/-- `cexRoot` with the unreadable content blanked to an empty readable
file (witness input). -/
def cexRootBlank : FSDir := .mk [⟨"a.py", some 10, some []⟩] .nil

/-! ## Claims -/

/-- Claim C1.  The claim (and the comment in `normalize.py` itself) says
`normalize_path "/items/<int:item_id>" = "/items/{item_id}"`.  The code
disagrees: the colon rewrite runs first and turns the segment into
`<int{item_id}>`, after which only the untyped angle rule fires, producing
`/items/{int{item_id}}`.  This theorem evaluates the code at the failing
input and records the divergence. -/
theorem normalize_path_typed_angle_divergence :
    normalize_path "/items/<int:item_id>" = "/items/\x7bint\x7bitem_id\x7d\x7d" ∧
    normalize_path "/items/<int:item_id>" ≠ "/items/\x7bitem_id\x7d" :=
  ⟨by rfl, by decide⟩

/-- Claim C9: `extract_path_params` on the normalization of
`"/users/:id/posts/:postId"` yields the descriptors `id` then `postId`, in
that order, path-located, required, string-typed; in general one
descriptor is emitted per brace-delimited name of the path, in order,
without reordering or deduplication (repeated names give repeated
descriptors, as the third conjunct shows). -/
theorem extract_path_params_order :
    extract_path_params (normalize_path "/users/:id/posts/:postId") =
      [⟨"id", "path", true, ⟨"string"⟩⟩, ⟨"postId", "path", true, ⟨"string"⟩⟩] ∧
    (∀ path : String, extract_path_params path =
      (braceFind path.data).map
        (fun n => ⟨String.mk n, "path", true, ⟨"string"⟩⟩)) ∧
    extract_path_params "/r/\x7bid\x7d/\x7bid\x7d" =
      [⟨"id", "path", true, ⟨"string"⟩⟩, ⟨"id", "path", true, ⟨"string"⟩⟩] :=
  ⟨by decide, fun _ => rfl, by decide⟩

/-- Claim C2, counterexample.  The claim says `enrich_route` never raises:
any failure to parse or validate the LLM response yields the all-null
`Enrichment`.  But the `try` in the source wraps only `Enrichment(**data)`;
when the response text is not JSON and contains no brace-delimited span,
`gemini_json` re-raises `json.loads`'s error and `enrich_route` propagates
it (modelled by `none`). -/
theorem enrich_route_parse_failure_raises :
    enrich_route ⟨"app.py", 1, 3, "code"⟩ "get" "/items"
      "I cannot produce structured output." = none := by rfl

/-- Claim C2, amended: only a failure to validate the parsed response
against the `Enrichment` shape is recovered as the all-null enrichment
(summary, auth, requestBody, responses all null); a response that fails
JSON parsing (both directly and after brace-span recovery) raises out of
`enrich_route` instead. -/
theorem enrich_route_validation_failure_all_null
    (snippet : Snippet) (method raw_path resp_text : String) (data : JValue)
    (hp : gemini_json resp_text = some data)
    (hv : validateEnrichment data = none) :
    enrich_route snippet method raw_path resp_text =
      some ⟨none, none, none, none⟩ := by
  unfold enrich_route
  rw [hp]
  show some ((validateEnrichment data).getD allNullEnrichment) = _
  rw [hv]
  rfl

/-- Witness for the amended claim C2: `"[1]"` parses as JSON but is not an
object, so validation fails and the enrichment degrades to all-null. -/
theorem enrich_route_validation_failure_all_null_witness :
    enrich_route ⟨"app.py", 1, 3, "code"⟩ "get" "/items" "[1]" =
      some ⟨none, none, none, none⟩ :=
  enrich_route_validation_failure_all_null ⟨"app.py", 1, 3, "code"⟩ "get"
    "/items" "[1]" (.arr [.num 1]) (by rfl) (by rfl)

/-- Claim C5: when the planned queries yield zero matches in total, the
orchestrator re-runs the search with `FALLBACK_QUERIES` and reports
`rounds_used = 2`; when they yield at least one match, the planned results
stand and `rounds_used = 1`. -/
theorem post_generate_search_fallback (repo_dir : String)
    (globF : String → List String) (compileRe : String → Option (String → Bool))
    (fileLines : String → List String) (planned : List SearchQuery)
    (context_lines : Nat) :
    (((multi_search repo_dir globF compileRe fileLines planned context_lines
        50).map List.length).sum = 0 →
      post_generate_search repo_dir globF compileRe fileLines planned
          context_lines =
        ⟨multi_search repo_dir globF compileRe fileLines FALLBACK_QUERIES
           context_lines 50, true, 2⟩) ∧
    (((multi_search repo_dir globF compileRe fileLines planned context_lines
        50).map List.length).sum ≠ 0 →
      post_generate_search repo_dir globF compileRe fileLines planned
          context_lines =
        ⟨multi_search repo_dir globF compileRe fileLines planned context_lines
           50, false, 1⟩) := by
  unfold post_generate_search
  constructor <;> intro h <;> simp [h]

/-- Witness for claim C5: with a glob collaborator that finds no files the
planned queries match nothing, the fallback set is searched, and two
rounds are reported. -/
theorem post_generate_search_fallback_witness :
    post_generate_search "r" emptyGlob cexCompile cexLines [⟨"a", "g", "w"⟩] 5 =
      ⟨multi_search "r" emptyGlob cexCompile cexLines FALLBACK_QUERIES 5 50,
       true, 2⟩ :=
  (post_generate_search_fallback "r" emptyGlob cexCompile cexLines
    [⟨"a", "g", "w"⟩] 5).1 (by rfl)

/-- Claim C10, counterexample.  The claim says that whenever the center
line is past the end of the file the returned snippet's text is empty; but
with one line, center 2 and radius 1 the range is `[1, 1]` and the text is
the whole line. -/
theorem read_snippet_text_not_empty_beyond_eof :
    (read_snippet ["a\n"] "w" 2 1).text = "a\n" ∧ ("a\n" : String) ≠ "" :=
  ⟨by rfl, by decide⟩

/-- Claim C10, amended: for a file of `L` lines, center `c > L` and radius
`r ≥ 0`, `read_snippet` returns (without raising) a snippet whose `start`
is `max 1 (c - r)` and whose `end` is `min L (c + r)`, each bound clamped
individually; the text is empty — with `start` exceeding `end` — in the
narrower case `c - r > L`, while for `c - r ≤ L` the tail of the file is
still returned. -/
theorem read_snippet_clamps (lines : List String) (file : String) (c r : Int)
    (hr : 0 ≤ r) (hc : (lines.length : Int) < c) :
    (read_snippet lines file c r).start = max 1 (c - r) ∧
    (read_snippet lines file c r).«end» = min ((lines.length : Int)) (c + r) ∧
    ((lines.length : Int) < c - r →
      (read_snippet lines file c r).text = "" ∧
      (read_snippet lines file c r).«end» < (read_snippet lines file c r).start) := by
  refine ⟨rfl, rfl, fun hcr => ⟨?_, ?_⟩⟩
  · show String.join (pySlice lines (max 1 (c - r) - 1)
      (min ((lines.length : Int)) (c + r))) = ""
    have h1 : pySliceIdx lines.length (max 1 (c - r) - 1) = lines.length := by
      unfold pySliceIdx
      rw [if_neg (by omega)]
      omega
    unfold pySlice
    rw [h1, List.drop_eq_nil_of_le (by simp)]
    rfl
  · show min ((lines.length : Int)) (c + r) < max 1 (c - r)
    omega

/-- Witness for the amended claim C10: a one-line file read around center
5 with radius 1 gives `start = 4 > 1 = end` and empty text. -/
theorem read_snippet_clamps_witness :
    (read_snippet ["a\n"] "w" 5 1).text = "" ∧
    (read_snippet ["a\n"] "w" 5 1).«end» < (read_snippet ["a\n"] "w" 5 1).start :=
  (read_snippet_clamps ["a\n"] "w" 5 1 (by decide) (by decide)).2.2 (by decide)

/-! ### Dictionary lemmas for the merge claims -/

theorem dictGet_dictSet_self {α : Type} (d : List (String × α)) (k : String)
    (v : α) : dictGet (dictSet d k v) k = some v := by
  induction d with
  | nil => simp [dictSet, dictGet]
  | cons p rest ih =>
      obtain ⟨k', v'⟩ := p
      by_cases h : k' = k
      · simp [dictSet, h, dictGet]
      · simp [dictSet, h, dictGet, ih]

theorem dictGet_isSome_iff_mem {α : Type} (d : List (String × α)) (k : String) :
    (dictGet d k).isSome ↔ k ∈ d.map Prod.fst := by
  induction d with
  | nil => simp [dictGet]
  | cons p rest ih =>
      obtain ⟨k', v'⟩ := p
      by_cases h : k' = k
      · simp [dictGet, h]
      · simp [dictGet, h, ih, Ne.symm h]

theorem dictSetdefault_get {α : Type} (d : List (String × α)) (k : String)
    (v : α) : dictGet (dictSetdefault d k v) k = some ((dictGet d k).getD v) := by
  unfold dictSetdefault
  cases hd : dictGet d k with
  | some w => simp [hd]
  | none =>
      simp only [Option.getD_none]
      induction d with
      | nil => simp [dictGet]
      | cons p rest ih =>
          obtain ⟨k', v'⟩ := p
          by_cases h : k' = k
          · simp [dictGet, h] at hd
          · simp [dictGet, h] at hd ⊢
            exact ih hd

theorem dictSetdefault_of_isSome {α : Type} (d : List (String × α)) (k : String)
    (v : α) (h : (dictGet d k).isSome) : dictSetdefault d k v = d := by
  unfold dictSetdefault
  cases hd : dictGet d k with
  | some w => rfl
  | none => rw [hd] at h; simp at h

theorem dictSet_keys {α : Type} (d : List (String × α)) (k : String) (v : α) :
    (dictSet d k v).map Prod.fst =
      if k ∈ d.map Prod.fst then d.map Prod.fst else d.map Prod.fst ++ [k] := by
  induction d with
  | nil => simp [dictSet]
  | cons p rest ih =>
      obtain ⟨k', v'⟩ := p
      by_cases h : k' = k
      · simp [dictSet, h]
      · simp only [dictSet, if_neg h, List.map_cons, ih]
        by_cases hm : k ∈ rest.map Prod.fst
        · simp [hm, h, Ne.symm h]
        · simp [hm, h, Ne.symm h]

theorem mem_keys_dictSet_self {α : Type} (d : List (String × α)) (k : String)
    (v : α) : k ∈ (dictSet d k v).map Prod.fst := by
  rw [dictSet_keys]
  by_cases hm : k ∈ d.map Prod.fst <;> simp [hm]

/-- Claim C6: merging two route definitions with the same path and the
same method (up to case) into any document leaves exactly one operation
object at `paths[path][lowercase method]`, and that operation is the second
route's entry (last write wins; no conflict error).  The hypothesis is the
dict well-formedness Python guarantees: the method dict at that path has
no duplicate keys. -/
theorem merge_route_last_write_wins (doc : OpenApiDoc) (r1 r2 : RouteIn)
    (hpath : r1.path = r2.path) (hmeth : pyLower r1.method = pyLower r2.method)
    (hwf : (((dictGet doc.paths r2.path).getD []).map Prod.fst).Nodup) :
    ((((dictGet (merge_route (merge_route doc r1) r2).paths r2.path).getD
        []).map Prod.fst).count (pyLower r2.method)) = 1 ∧
    dictGet ((dictGet (merge_route (merge_route doc r1) r2).paths
        r2.path).getD []) (pyLower r2.method) = some (routeEntry r2) := by
  unfold merge_route
  simp only [hpath, hmeth]
  set p := r2.path
  set m := pyLower r2.method
  set inner0 := (dictGet doc.paths p).getD [] with hinner0
  have h0 : dictGet (dictSetdefault doc.paths p []) p = some inner0 := by
    rw [dictSetdefault_get]
  set e1 := routeEntry r1
  set e2 := routeEntry r2
  set I1 := dictSet inner0 m e1 with hI1
  set P1 := dictSet (dictSetdefault doc.paths p []) p I1 with hP1
  have h1 : dictGet P1 p = some I1 := dictGet_dictSet_self _ _ _
  have h2 : dictSetdefault P1 p [] = P1 :=
    dictSetdefault_of_isSome _ _ _ (by rw [h1]; rfl)
  rw [h0]
  simp only [Option.getD_some]
  rw [h2, h1]
  simp only [Option.getD_some]
  rw [dictGet_dictSet_self]
  simp only [Option.getD_some]
  refine ⟨?_, dictGet_dictSet_self _ _ _⟩
  have hmem1 : m ∈ I1.map Prod.fst := mem_keys_dictSet_self _ _ _
  rw [dictSet_keys, if_pos hmem1, hI1, dictSet_keys]
  by_cases hm0 : m ∈ inner0.map Prod.fst
  · rw [if_pos hm0]
    exact List.count_eq_one_of_mem hwf hm0
  · rw [if_neg hm0]
    rw [List.count_append]
    rw [List.count_eq_zero_of_not_mem hm0]
    simp

/-- Witness for claim C6: merging `GET /a` twice (different summaries)
into a fresh skeleton leaves one `get` operation carrying the second
summary. -/
theorem merge_route_last_write_wins_witness :
    ((((dictGet (merge_route (merge_route (build_openapi_skeleton "t" "0.1.0"
        none) ⟨"GET", "/a", some "first", none, none, none⟩)
        ⟨"get", "/a", some "second", none, none, none⟩).paths "/a").getD
        []).map Prod.fst).count (pyLower "get")) = 1 ∧
    dictGet ((dictGet (merge_route (merge_route (build_openapi_skeleton "t"
        "0.1.0" none) ⟨"GET", "/a", some "first", none, none, none⟩)
        ⟨"get", "/a", some "second", none, none, none⟩).paths "/a").getD [])
        (pyLower "get") =
      some (routeEntry ⟨"get", "/a", some "second", none, none, none⟩) :=
  merge_route_last_write_wins (build_openapi_skeleton "t" "0.1.0" none)
    ⟨"GET", "/a", some "first", none, none, none⟩
    ⟨"get", "/a", some "second", none, none, none⟩ (by rfl) (by rfl)
    (by simp [build_openapi_skeleton, dictGet])

/-- Claim C8: a route whose `responses` is absent or empty merges into an
operation whose responses map holds exactly the key `"200"`, with the OK
description and the permissive-object `application/json` schema. -/
theorem merge_route_default_response (doc : OpenApiDoc) (r : RouteIn)
    (h : r.responses = none ∨ r.responses = some []) :
    dictGet ((dictGet (merge_route doc r).paths r.path).getD [])
        (pyLower r.method) = some (routeEntry r) ∧
    jGet (routeEntry r) "responses" = some (.obj [("200",
      .obj [("description", .str "OK"),
            ("content", .obj [("application/json",
                .obj [("schema", .obj [("type", .str "object"),
                                       ("additionalProperties",
                                        .bool true)])])])])]) := by
  constructor
  · simp only [merge_route]
    rw [dictSetdefault_get]
    simp only [Option.getD_some]
    rw [dictGet_dictSet_self]
    simp only [Option.getD_some]
    exact dictGet_dictSet_self _ _ _
  · rcases h with h | h <;>
      cases hrb : r.requestBody <;>
        simp [routeEntry, h, hrb, jGet, dictGet, dictSet, _default_response]

/-- Witness for claim C8: a responses-less `POST /b` route merges into an
operation whose responses map is exactly the default 200/OK entry. -/
theorem merge_route_default_response_witness :
    dictGet ((dictGet (merge_route (build_openapi_skeleton "t" "0.1.0" none)
        ⟨"POST", "/b", none, none, none, none⟩).paths "/b").getD [])
        (pyLower "POST") =
      some (routeEntry ⟨"POST", "/b", none, none, none, none⟩) ∧
    jGet (routeEntry ⟨"POST", "/b", none, none, none, none⟩) "responses" =
      some (.obj [("200",
        .obj [("description", .str "OK"),
              ("content", .obj [("application/json",
                  .obj [("schema", .obj [("type", .str "object"),
                                         ("additionalProperties",
                                          .bool true)])])])])]) :=
  merge_route_default_response (build_openapi_skeleton "t" "0.1.0" none)
    ⟨"POST", "/b", none, none, none, none⟩ (Or.inl rfl)

/-! ### Length lemmas for the searcher cap claim -/

theorem grepGo_length_le (pat : String → Bool) (allLines : List String)
    (path : String) (context limit : Nat) :
    ∀ (rem : List String) (i n : Nat), n < limit →
      (grepGo pat allLines path context limit i rem n).length ≤ limit - n := by
  intro rem
  induction rem with
  | nil => intro i n h; simp [grepGo]
  | cons line rest ih =>
      intro i n h
      simp only [grepGo]
      cases hp : pat line
      · have := ih (i + 1) n h
        simp only [hp, Bool.false_eq_true, if_false]
        omega
      · by_cases hstop : n + 1 ≥ limit
        · simp [hp, hstop]
          omega
        · have := ih (i + 1) (n + 1) (by omega)
          simp [hp, hstop]
          omega

theorem grep_file_length_le (compileRe : String → Option (String → Bool))
    (fileLines : String → List String) (path regex : String)
    (context limit : Nat) (h : 1 ≤ limit) :
    (_grep_file compileRe fileLines path regex context limit).length ≤ limit := by
  unfold _grep_file
  cases compileRe regex with
  | none => simp
  | some pat =>
      have := grepGo_length_le pat (fileLines path) path context limit
        (fileLines path) 1 0 (by omega)
      simpa using this

theorem msAcc_length_le (compileRe : String → Option (String → Bool))
    (fileLines : String → List String) (regex : String)
    (context limit : Nat) (h : 1 ≤ limit) :
    ∀ (files : List String) (acc : List Match), acc.length < limit →
      (msAcc compileRe fileLines regex context limit files acc).length ≤
        2 * limit - 1 := by
  intro files
  induction files with
  | nil => intro acc ha; simp only [msAcc]; omega
  | cons f fs ih =>
      intro acc ha
      simp only [msAcc]
      have hg := grep_file_length_le compileRe fileLines f regex context limit h
      by_cases hstop :
        (acc ++ _grep_file compileRe fileLines f regex context limit).length ≥
          limit
      · simp only [if_pos hstop]
        simp only [List.length_append]
        omega
      · simp only [if_neg hstop]
        exact ih _ (by omega)

/-- Claim C3, counterexample.  The claim caps each query's list at `limit`;
but the source extends the accumulator with a whole file's matches (itself
up to `limit` long) before checking the cap, so with `limit = 2`, one file
with one matching line and a second file with two matching lines, the
query's list holds 3 matches. -/
theorem multi_search_cap_exceeded :
    ¬ (∀ l ∈ multi_search "r" cexGlob cexCompile cexLines [⟨"x", "g", "w"⟩] 0 2,
        l.length ≤ 2) := by
  intro h
  have hmap : (multi_search "r" cexGlob cexCompile cexLines [⟨"x", "g", "w"⟩]
      0 2).map List.length = [3] := by rfl
  have hall : ∀ x ∈ (multi_search "r" cexGlob cexCompile cexLines
      [⟨"x", "g", "w"⟩] 0 2).map List.length, x ≤ 2 := by
    intro x hx
    obtain ⟨l, hl, rfl⟩ := List.mem_map.mp hx
    exact h l hl
  rw [hmap] at hall
  have := hall 3 (by simp)
  omega

/-- Claim C3, amended: for `limit ≥ 1`, every per-query list of
`multi_search` holds at most `2·limit − 1` matches — accumulation stops as
soon as the cap is reached, skipping remaining files, but the extension
that crosses the cap may itself add up to `limit` matches, so the cap is
`2·limit − 1` rather than `limit`. -/
theorem multi_search_cap_twice_limit (repo_dir : String)
    (globF : String → List String)
    (compileRe : String → Option (String → Bool))
    (fileLines : String → List String) (queries : List SearchQuery)
    (context limit : Nat) (h : 1 ≤ limit) :
    ∀ l ∈ multi_search repo_dir globF compileRe fileLines queries context limit,
      l.length ≤ 2 * limit - 1 := by
  intro l hl
  unfold multi_search at hl
  obtain ⟨q, hq, rfl⟩ := List.mem_map.mp hl
  exact msAcc_length_le compileRe fileLines q.regex context limit h _ []
    (by simpa using h)

theorem headD_mem_of_ne_nil {α : Type} (l : List α) (d : α) (h : l ≠ []) :
    l.headD d ∈ l := by
  cases l with
  | nil => exact absurd rfl h
  | cons a t => simp

/-- Witness for the amended claim C3: the first (and only) per-query list
of the counterexample configuration stays within the amended cap,
`3 ≤ 2·2 − 1`. -/
theorem multi_search_cap_twice_limit_witness :
    ((multi_search "r" cexGlob cexCompile cexLines [⟨"x", "g", "w"⟩] 0
      2).headD []).length ≤ 2 * 2 - 1 :=
  multi_search_cap_twice_limit "r" cexGlob cexCompile cexLines
    [⟨"x", "g", "w"⟩] 0 2 (by omega) _
    (headD_mem_of_ne_nil _ _ (by simp [multi_search]))

/-! ### Blanking lemmas for the inventory claim -/

theorem read_head_tail_none_eq_empty (mb : Nat) :
    _read_head_tail none mb = _read_head_tail (some []) mb := by
  simp [_read_head_tail]

theorem invStep_blank (exts : Option (List String)) (mf mb : Nat)
    (rel : List String) :
    ∀ {fs1 fs2 : List FSFile}, List.Forall₂ FileBlank fs1 fs2 →
      ∀ (count : Nat) (acc : List FileIndex),
        invStep exts mf mb rel fs1 count acc =
          invStep exts mf mb rel fs2 count acc := by
  intro fs1 fs2 h
  induction h with
  | nil => intro count acc; rfl
  | @cons f1 f2 t1 t2 hf ht ih =>
      intro count acc
      obtain ⟨hname, hsize, hcontent⟩ := hf
      simp only [invStep]
      by_cases hc : mf ≤ count
      · simp [hc]
      · simp only [if_neg hc]
        rw [hsize, hname]
        cases f2.size with
        | none => exact ih count acc
        | some size =>
            have hht : _read_head_tail f1.content mb =
                _read_head_tail f2.content mb := by
              rcases hcontent with hcc | ⟨hc1, hc2⟩
              · rw [hcc]
              · rw [hc1, hc2]
                exact read_head_tail_none_eq_empty mb
            simp only [hht]
            by_cases he : _is_text_ext (pyLower (splitextExt f2.name)) exts
            · simp only [he]
              exact ih _ _
            · simp only [he]
              exact ih _ _

theorem pruneSubdirs_blank (rel : List String) :
    ∀ {s1 s2 : FSDirs}, SubdirsBlank s1 s2 →
      List.Forall₂ (fun p q => p.1 = q.1 ∧ DirBlank p.2 q.2)
        (pruneSubdirs rel s1) (pruneSubdirs rel s2)
  | _, _, .nil => by simp [pruneSubdirs]
  | _, _, .cons n d1 d2 r1 r2 hd hr => by
      simp only [pruneSubdirs]
      by_cases hskip : _should_skip_dir n
      · simp only [hskip, if_true]
        exact pruneSubdirs_blank rel hr
      · simp only [hskip, if_false]
        exact List.Forall₂.cons ⟨rfl, hd⟩ (pruneSubdirs_blank rel hr)

theorem wlMeasure_append (a b : List (List String × FSDir)) :
    wlMeasure (a ++ b) = wlMeasure a + wlMeasure b := by
  simp [wlMeasure]

theorem wlMeasure_cons (p : List String × FSDir)
    (t : List (List String × FSDir)) :
    wlMeasure (p :: t) = dirMeasure p.2 + wlMeasure t := by
  simp [wlMeasure]

theorem wlMeasure_pruneSubdirs_le (rel : List String) :
    ∀ s : FSDirs, wlMeasure (pruneSubdirs rel s) ≤ dirsMeasure s
  | .nil => by simp [pruneSubdirs, wlMeasure]
  | .cons n d r => by
      simp only [pruneSubdirs, dirsMeasure]
      by_cases hskip : _should_skip_dir n
      · simp only [hskip, if_true]
        have := wlMeasure_pruneSubdirs_le rel r
        omega
      · simp only [hskip, Bool.false_eq_true, if_false]
        have h1 := wlMeasure_pruneSubdirs_le rel r
        rw [wlMeasure_cons]
        dsimp only
        omega

theorem one_le_dirMeasure (d : FSDir) : 1 ≤ dirMeasure d := by
  cases d with
  | mk fs sd => simp [dirMeasure]

theorem walkGo_nil_any (fuel : Nat) : walkGo fuel [] = [] := by
  cases fuel <;> rfl

theorem walkGo_blank :
    ∀ (fuel1 : Nat) (wl1 wl2 : List (List String × FSDir)) (fuel2 : Nat),
      wlMeasure wl1 ≤ fuel1 → wlMeasure wl2 ≤ fuel2 →
      List.Forall₂ (fun p q => p.1 = q.1 ∧ DirBlank p.2 q.2) wl1 wl2 →
      List.Forall₂ (fun a b => a.1 = b.1 ∧ List.Forall₂ FileBlank a.2 b.2)
        (walkGo fuel1 wl1) (walkGo fuel2 wl2) := by
  intro fuel1
  induction fuel1 with
  | zero =>
      intro wl1 wl2 fuel2 h1 h2 hr
      cases hr with
      | nil => rw [walkGo_nil_any, walkGo_nil_any]; exact List.Forall₂.nil
      | @cons p q t1 t2 hpq ht =>
          exfalso
          have hd1 := one_le_dirMeasure p.2
          rw [wlMeasure_cons] at h1
          omega
  | succ n ih =>
      intro wl1 wl2 fuel2 h1 h2 hr
      cases hr with
      | nil => rw [walkGo_nil_any, walkGo_nil_any]; exact List.Forall₂.nil
      | @cons p q t1 t2 hpq ht =>
          obtain ⟨rel1, d1⟩ := p
          obtain ⟨rel2, d2⟩ := q
          obtain ⟨hrel, hd⟩ := hpq
          cases hrel
          cases hd with
          | mk fs1 fs2 sd1 sd2 hfs hsd =>
              cases fuel2 with
              | zero =>
                  exfalso
                  rw [wlMeasure_cons] at h2
                  dsimp only at h2
                  have := one_le_dirMeasure (FSDir.mk fs2 sd2)
                  omega
              | succ m =>
                  simp only [walkGo]
                  refine List.Forall₂.cons ⟨rfl, hfs⟩ ?_
                  apply ih
                  · have hp := wlMeasure_pruneSubdirs_le rel1 sd1
                    rw [wlMeasure_append]
                    rw [wlMeasure_cons] at h1
                    dsimp only at h1
                    simp only [dirMeasure] at h1
                    omega
                  · have hp := wlMeasure_pruneSubdirs_le rel1 sd2
                    rw [wlMeasure_append]
                    rw [wlMeasure_cons] at h2
                    dsimp only at h2
                    simp only [dirMeasure] at h2
                    omega
                  · exact List.rel_append (pruneSubdirs_blank rel1 hsd) ht

theorem invWalk_blank (exts : Option (List String)) (mf mb : Nat) :
    ∀ {w1 w2 : List WalkEntry},
      List.Forall₂ (fun a b => a.1 = b.1 ∧ List.Forall₂ FileBlank a.2 b.2)
        w1 w2 →
      ∀ (count : Nat) (acc : List FileIndex),
        invWalk exts mf mb w1 count acc = invWalk exts mf mb w2 count acc := by
  intro w1 w2 h
  induction h with
  | nil => intro count acc; rfl
  | @cons a b t1 t2 hab ht ih =>
      intro count acc
      obtain ⟨rel1, files1⟩ := a
      obtain ⟨rel2, files2⟩ := b
      obtain ⟨hrel, hfiles⟩ := hab
      cases hrel
      simp only [invWalk]
      rw [invStep_blank exts mf mb rel1 hfiles count acc]
      cases invStep exts mf mb rel1 files2 count acc with
      | mk acc' rest =>
          obtain ⟨count', stopped⟩ := rest
          by_cases hs : stopped
          · simp [hs]
          · simp only [hs, if_false]
            exact ih count' acc'

/-- Claim C4, counterexample.  The claim says an unreadable file does not
appear in the inventory; but `_read_head_tail` catches the read failure
and returns empty head/tail, and `build_inventory` appends the file
anyway: a stat-able, unreadable `a.py` is inventoried with empty
head/tail. -/
theorem build_inventory_unreadable_file_listed :
    build_inventory cexRoot none 200 200000 = [⟨"a.py", ".py", 10, "", ""⟩] := by
  rfl

/-- Claim C4, amended: the traversal never raises on a file whose contents
cannot be read, but such a file is not skipped: whenever its size can
still be stat-ed it appears in the inventory exactly as an empty readable
file would (head and tail empty) — the inventory of a tree is unchanged by
blanking unreadable contents to empty ones.  (Only files whose `getsize`
itself fails are skipped.) -/
theorem build_inventory_unreadable_as_empty (r1 r2 : FSDir)
    (h : DirBlank r1 r2) (exts : Option (List String)) (mf mb : Nat) :
    build_inventory r1 exts mf mb = build_inventory r2 exts mf mb := by
  unfold build_inventory walkFS
  apply invWalk_blank
  apply walkGo_blank
  · simp [wlMeasure]
  · simp [wlMeasure]
  · exact List.Forall₂.cons ⟨rfl, h⟩ List.Forall₂.nil

/-- Witness for the amended claim C4: blanking the unreadable `a.py` to an
empty readable file leaves the inventory unchanged. -/
theorem build_inventory_unreadable_as_empty_witness :
    DirBlank cexRoot cexRootBlank ∧
    build_inventory cexRoot none 200 200000 =
      build_inventory cexRootBlank none 200 200000 := by
  have hb : DirBlank cexRoot cexRootBlank :=
    DirBlank.mk _ _ _ _
      (List.Forall₂.cons ⟨rfl, rfl, Or.inr ⟨rfl, rfl⟩⟩ List.Forall₂.nil)
      SubdirsBlank.nil
  exact ⟨hb, build_inventory_unreadable_as_empty cexRoot cexRootBlank hb
    none 200 200000⟩

/-! ### List helpers for the idempotence claim -/

theorem dropWhile_length_le (p : Char → Bool) :
    ∀ l : List Char, (l.dropWhile p).length ≤ l.length := by
  intro l
  induction l with
  | nil => simp
  | cons a t ih =>
      simp only [List.dropWhile]
      cases p a
      · simp
      · exact le_trans ih (by simp)

theorem head?_dropWhile_false (p : Char → Bool) :
    ∀ (l : List Char) (c : Char), (l.dropWhile p).head? = some c →
      p c = false := by
  intro l
  induction l with
  | nil => intro c h; simp at h
  | cons a t ih =>
      intro c h
      simp only [List.dropWhile] at h
      cases hp : p a
      · rw [hp] at h
        simp only [List.head?_cons, Option.some.injEq] at h
        rw [← h, ← hp]
      · rw [hp] at h
        exact ih c h

theorem mem_dropWhile_mem (p : Char → Bool) (l : List Char) (c : Char)
    (h : c ∈ l.dropWhile p) : c ∈ l :=
  (List.dropWhile_sublist p).subset h

theorem mem_takeWhile_mem (p : Char → Bool) (l : List Char) (c : Char)
    (h : c ∈ l.takeWhile p) : c ∈ l :=
  (List.takeWhile_sublist p).subset h

theorem takeWhile_isEmpty_head (p : Char → Bool) (l : List Char)
    (h : (l.takeWhile p).isEmpty = true) :
    ∀ c, l.head? = some c → p c = false := by
  intro c hc
  cases l with
  | nil => simp at hc
  | cons a t =>
      have ha : a = c := by simpa using hc
      subst ha
      by_cases hp : p a = true
      · rw [List.takeWhile_cons_of_pos hp] at h
        simp at h
      · simpa using hp

theorem head_false_takeWhile_isEmpty (p : Char → Bool) (l : List Char)
    (h : ∀ c, l.head? = some c → p c = false) :
    (l.takeWhile p).isEmpty = true := by
  cases l with
  | nil => rfl
  | cons a t =>
      simp only [List.takeWhile]
      rw [h a (by rfl)]
      rfl

theorem getLast?_cons_ne_nil (a : Char) (l : List Char) (h : l ≠ []) :
    (a :: l).getLast? = l.getLast? := by
  cases l with
  | nil => exact absurd rfl h
  | cons b t => exact List.getLast?_cons_cons

theorem getLast?_append_ne_nil (xs ys : List Char) (h : ys ≠ []) :
    (xs ++ ys).getLast? = ys.getLast? := by
  induction xs with
  | nil => rfl
  | cons a t ih =>
      rw [List.cons_append, getLast?_cons_ne_nil _ _ (by
        intro hc
        exact h (List.append_eq_nil.mp hc).2), ih]

theorem dropWhile_getLast? (p : Char → Bool) :
    ∀ l : List Char, l.dropWhile p ≠ [] →
      (l.dropWhile p).getLast? = l.getLast? := by
  intro l
  induction l with
  | nil => intro h; simp at h
  | cons a t ih =>
      intro h
      by_cases hp : p a = true
      · rw [List.dropWhile_cons_of_pos hp] at h ⊢
        rw [ih h, getLast?_cons_ne_nil]
        intro ht
        rw [ht] at h
        simp at h
      · rw [List.dropWhile_cons_of_neg hp]

theorem lastNotSpace_tail (a : Char) (l : List Char)
    (h : lastNotSpace (a :: l)) (hne : l ≠ []) : lastNotSpace l := by
  intro c hc
  exact h c (by rw [getLast?_cons_ne_nil a l hne]; exact hc)

theorem lastNotSpace_dropWhile (p : Char → Bool) (l : List Char)
    (h : lastNotSpace l) : lastNotSpace (l.dropWhile p) := by
  intro c hc
  have hne : l.dropWhile p ≠ [] := by
    intro h0; rw [h0] at hc; simp at hc
  exact h c (by rw [← dropWhile_getLast? p l hne]; exact hc)

/-! ### `noColonWord` and `noDoubleSlash` helpers -/

theorem noColonWord_tail (a : Char) (l : List Char)
    (h : noColonWord (a :: l)) : noColonWord l := by
  cases l with
  | nil => rfl
  | cons b t =>
      simp only [noColonWord, Bool.and_eq_true] at h
      exact h.2

theorem noColonWord_cons_ne (a : Char) (l : List Char) (ha : a ≠ ':')
    (h : noColonWord l) : noColonWord (a :: l) := by
  cases l with
  | nil => rfl
  | cons b t =>
      simp only [noColonWord, Bool.and_eq_true]
      refine ⟨?_, h⟩
      simp [ha]

theorem noColonWord_cons_colon (l : List Char)
    (hh : ∀ b, l.head? = some b → isWordChar b = false)
    (h : noColonWord l) : noColonWord (':' :: l) := by
  cases l with
  | nil => rfl
  | cons b t =>
      simp only [noColonWord, Bool.and_eq_true]
      refine ⟨?_, h⟩
      simp [hh b (by rfl)]

theorem noColonWord_dropWhile (p : Char → Bool) :
    ∀ l : List Char, noColonWord l → noColonWord (l.dropWhile p) := by
  intro l
  induction l with
  | nil => intro h; exact h
  | cons a t ih =>
      intro h
      simp only [List.dropWhile]
      cases p a
      · exact h
      · exact ih (noColonWord_tail a t h)

theorem noColonWord_append (xs ys : List Char)
    (hx : ∀ c ∈ xs, c ≠ ':') (hy : noColonWord ys) :
    noColonWord (xs ++ ys) := by
  induction xs with
  | nil => exact hy
  | cons a t ih =>
      rw [List.cons_append]
      exact noColonWord_cons_ne a (t ++ ys) (hx a (by simp))
        (ih (fun c hc => hx c (by simp [hc])))

theorem noDoubleSlash_tail (a : Char) (l : List Char)
    (h : noDoubleSlash (a :: l)) : noDoubleSlash l := by
  cases l with
  | nil => rfl
  | cons b t =>
      simp only [noDoubleSlash, Bool.and_eq_true] at h
      exact h.2

theorem noDoubleSlash_cons (a : Char) (l : List Char)
    (hh : ∀ b, l.head? = some b → (a = '/' → b ≠ '/'))
    (h : noDoubleSlash l) : noDoubleSlash (a :: l) := by
  cases l with
  | nil => rfl
  | cons b t =>
      simp only [noDoubleSlash, Bool.and_eq_true]
      refine ⟨?_, h⟩
      by_cases ha : a = '/'
      · simp [ha, hh b (by rfl) ha]
      · simp [ha]

/-! ### `colonGo` lemmas -/

theorem isWordChar_ne_colon (c : Char) (h : isWordChar c = true) : c ≠ ':' := by
  intro hc
  rw [hc] at h
  exact absurd h (by decide)

theorem colonGo_nil (fuel : Nat) : colonGo fuel [] = [] := by
  cases fuel <;> rfl

theorem colonGo_cons_ne (fuel : Nat) (c : Char) (cs : List Char) (h : c ≠ ':') :
    colonGo (fuel + 1) (c :: cs) = c :: colonGo fuel cs := by
  rw [colonGo.eq_def]
  split <;> simp_all

theorem colonGo_cons_colon (fuel : Nat) (cs : List Char) :
    colonGo (fuel + 1) (':' :: cs) =
      if (cs.takeWhile isWordChar).isEmpty then ':' :: colonGo fuel cs
      else '{' :: (cs.takeWhile isWordChar ++
        '}' :: colonGo fuel (cs.dropWhile isWordChar)) := by
  rfl

theorem colonGo_ne_nil (fuel : Nat) (l : List Char) (h : l ≠ []) :
    colonGo fuel l ≠ [] := by
  cases fuel with
  | zero => exact h
  | succ n =>
      cases l with
      | nil => exact absurd rfl h
      | cons c cs =>
          by_cases hc : c = ':'
          · subst hc
            rw [colonGo_cons_colon]
            by_cases hw : (cs.takeWhile isWordChar).isEmpty = true
            · simp [hw]
            · simp [hw]
          · rw [colonGo_cons_ne n c cs hc]
            simp

theorem colonGo_head? (fuel : Nat) (l : List Char) :
    (colonGo fuel l).head? = l.head? ∨ (colonGo fuel l).head? = some '{' := by
  cases fuel with
  | zero => exact Or.inl rfl
  | succ n =>
      cases l with
      | nil => exact Or.inl rfl
      | cons c cs =>
          by_cases hc : c = ':'
          · subst hc
            rw [colonGo_cons_colon]
            by_cases hw : (cs.takeWhile isWordChar).isEmpty = true
            · rw [if_pos hw]
              exact Or.inl rfl
            · rw [if_neg hw]
              exact Or.inr rfl
          · rw [colonGo_cons_ne n c cs hc]
            exact Or.inl rfl

theorem colonGo_fix : ∀ (fuel : Nat) (l : List Char), l.length ≤ fuel →
    noColonWord l → colonGo fuel l = l := by
  intro fuel
  induction fuel with
  | zero => intro l h hn; rfl
  | succ n ih =>
      intro l h hn
      cases l with
      | nil => exact colonGo_nil _
      | cons c cs =>
          have hlen : cs.length ≤ n := by
            simp only [List.length_cons] at h
            omega
          by_cases hc : c = ':'
          · subst hc
            rw [colonGo_cons_colon]
            have hw : (cs.takeWhile isWordChar).isEmpty = true := by
              apply head_false_takeWhile_isEmpty
              intro b hb
              cases cs with
              | nil => simp at hb
              | cons b2 t =>
                  have hb2 : b2 = b := by simpa using hb
                  subst hb2
                  simp only [noColonWord, Bool.and_eq_true] at hn
                  simpa using hn.1
            rw [if_pos hw, ih cs hlen (noColonWord_tail _ _ hn)]
          · rw [colonGo_cons_ne n c cs hc,
              ih cs hlen (noColonWord_tail _ _ hn)]

theorem colonGo_noColonWord : ∀ (fuel : Nat) (l : List Char),
    l.length ≤ fuel → noColonWord (colonGo fuel l) := by
  intro fuel
  induction fuel with
  | zero =>
      intro l h
      have h0 : l = [] := List.length_eq_zero.mp (Nat.le_zero.mp h)
      subst h0
      rfl
  | succ n ih =>
      intro l h
      cases l with
      | nil => rw [colonGo_nil]; rfl
      | cons c cs =>
          have hlen : cs.length ≤ n := by
            simp only [List.length_cons] at h
            omega
          by_cases hc : c = ':'
          · subst hc
            rw [colonGo_cons_colon]
            by_cases hw : (cs.takeWhile isWordChar).isEmpty = true
            · rw [if_pos hw]
              apply noColonWord_cons_colon
              · intro b hb
                rcases colonGo_head? n cs with hh | hh
                · rw [hh] at hb
                  exact takeWhile_isEmpty_head isWordChar cs hw b hb
                · rw [hh] at hb
                  have hb2 : b = '{' := by simpa using hb.symm
                  subst hb2
                  decide
              · exact ih cs hlen
            · rw [if_neg hw]
              apply noColonWord_cons_ne _ _ (by decide)
              apply noColonWord_append
              · intro x hx
                exact isWordChar_ne_colon x (List.mem_takeWhile_imp hx)
              · apply noColonWord_cons_ne _ _ (by decide)
                exact ih (cs.dropWhile isWordChar)
                  (le_trans (dropWhile_length_le _ _) hlen)
          · rw [colonGo_cons_ne n c cs hc]
            exact noColonWord_cons_ne c _ hc (ih cs hlen)

theorem colonGo_mem : ∀ (fuel : Nat) (l : List Char) (c : Char),
    c ∈ colonGo fuel l → c ∈ l ∨ c = '{' ∨ c = '}' := by
  intro fuel
  induction fuel with
  | zero => intro l c h; exact Or.inl h
  | succ n ih =>
      intro l c h
      cases l with
      | nil => rw [colonGo_nil] at h; simp at h
      | cons a cs =>
          by_cases ha : a = ':'
          · subst ha
            rw [colonGo_cons_colon] at h
            by_cases hw : (cs.takeWhile isWordChar).isEmpty = true
            · rw [if_pos hw] at h
              rcases List.mem_cons.mp h with h1 | h1
              · exact Or.inl (by simp [h1])
              · rcases ih cs c h1 with h2 | h2
                · exact Or.inl (by simp [h2])
                · exact Or.inr h2
            · rw [if_neg hw] at h
              rcases List.mem_cons.mp h with h1 | h1
              · exact Or.inr (Or.inl h1)
              · rcases List.mem_append.mp h1 with h2 | h2
                · exact Or.inl
                    (List.mem_cons_of_mem _ (mem_takeWhile_mem _ _ _ h2))
                · rcases List.mem_cons.mp h2 with h3 | h3
                  · exact Or.inr (Or.inr h3)
                  · rcases ih _ c h3 with h4 | h4
                    · exact Or.inl
                        (List.mem_cons_of_mem _ (mem_dropWhile_mem _ _ _ h4))
                    · exact Or.inr h4
          · rw [colonGo_cons_ne n a cs ha] at h
            rcases List.mem_cons.mp h with h1 | h1
            · exact Or.inl (by simp [h1])
            · rcases ih cs c h1 with h2 | h2
              · exact Or.inl (by simp [h2])
              · exact Or.inr h2

theorem colonGo_lastNotSpace : ∀ (fuel : Nat) (l : List Char),
    l.length ≤ fuel → lastNotSpace l → lastNotSpace (colonGo fuel l) := by
  intro fuel
  induction fuel with
  | zero => intro l h hl; exact hl
  | succ n ih =>
      intro l h hl
      cases l with
      | nil => rw [colonGo_nil]; exact hl
      | cons a cs =>
          have hlen : cs.length ≤ n := by
            simp only [List.length_cons] at h
            omega
          by_cases ha : a = ':'
          · subst ha
            rw [colonGo_cons_colon]
            by_cases hw : (cs.takeWhile isWordChar).isEmpty = true
            · rw [if_pos hw]
              intro c hc
              by_cases hcs : cs = []
              · subst hcs
                rw [colonGo_nil] at hc
                have hcc : c = ':' := by simpa using hc.symm
                subst hcc
                decide
              · rw [getLast?_cons_ne_nil _ _ (colonGo_ne_nil n cs hcs)] at hc
                exact ih cs hlen (lastNotSpace_tail _ _ hl hcs) c hc
            · rw [if_neg hw]
              intro c hc
              rw [getLast?_cons_ne_nil _ _ (by simp)] at hc
              rw [getLast?_append_ne_nil _ _ (by simp)] at hc
              have hcs : cs ≠ [] := by
                intro h0
                rw [h0] at hw
                exact hw rfl
              by_cases hrn : colonGo n (cs.dropWhile isWordChar) = []
              · rw [hrn] at hc
                have hcc : c = '}' := by simpa using hc.symm
                subst hcc
                decide
              · rw [getLast?_cons_ne_nil _ _ hrn] at hc
                exact ih (cs.dropWhile isWordChar)
                  (le_trans (dropWhile_length_le _ _) hlen)
                  (lastNotSpace_dropWhile _ _ (lastNotSpace_tail _ _ hl hcs))
                  c hc
          · rw [colonGo_cons_ne n a cs ha]
            intro c hc
            by_cases hcs : cs = []
            · subst hcs
              rw [colonGo_nil] at hc
              have hcc : c = a := by simpa using hc.symm
              subst hcc
              exact hl c (by simp)
            · rw [getLast?_cons_ne_nil _ _ (colonGo_ne_nil n cs hcs)] at hc
              exact ih cs hlen (lastNotSpace_tail _ _ hl hcs) c hc

/-! ### `typedGo` / `angleGo` lemmas -/

theorem typedGo_cons_ne (fuel : Nat) (c : Char) (cs : List Char)
    (h : c ≠ '<') : typedGo (fuel + 1) (c :: cs) = c :: typedGo fuel cs := by
  rw [typedGo.eq_def]
  split <;> simp_all

theorem typedGo_no_angle : ∀ (fuel : Nat) (l : List Char), '<' ∉ l →
    typedGo fuel l = l := by
  intro fuel
  induction fuel with
  | zero => intro l h; rfl
  | succ n ih =>
      intro l h
      cases l with
      | nil => rfl
      | cons c cs =>
          have hc : c ≠ '<' := fun h0 => h (by simp [h0])
          rw [typedGo_cons_ne n c cs hc,
            ih cs (fun h0 => h (by simp [h0]))]

theorem angleGo_cons_ne (fuel : Nat) (c : Char) (cs : List Char)
    (h : c ≠ '<') : angleGo (fuel + 1) (c :: cs) = c :: angleGo fuel cs := by
  rw [angleGo.eq_def]
  split <;> simp_all

theorem angleGo_no_angle : ∀ (fuel : Nat) (l : List Char), '<' ∉ l →
    angleGo fuel l = l := by
  intro fuel
  induction fuel with
  | zero => intro l h; rfl
  | succ n ih =>
      intro l h
      cases l with
      | nil => rfl
      | cons c cs =>
          have hc : c ≠ '<' := fun h0 => h (by simp [h0])
          rw [angleGo_cons_ne n c cs hc,
            ih cs (fun h0 => h (by simp [h0]))]

/-! ### `collapseGo` lemmas -/

theorem collapseGo_nil (fuel : Nat) : collapseGo fuel [] = [] := by
  cases fuel <;> rfl

theorem collapseGo_cons_ne (fuel : Nat) (c : Char) (cs : List Char)
    (h : c ≠ '/') : collapseGo (fuel + 1) (c :: cs) = c :: collapseGo fuel cs := by
  rw [collapseGo.eq_def]
  split <;> simp_all

theorem collapseGo_cons_slash (fuel : Nat) (cs : List Char) :
    collapseGo (fuel + 1) ('/' :: cs) =
      '/' :: collapseGo fuel (cs.dropWhile (· = '/')) := by
  rfl

theorem collapseGo_head? (fuel : Nat) (l : List Char) :
    (collapseGo fuel l).head? = l.head? := by
  cases fuel with
  | zero => rfl
  | succ n =>
      cases l with
      | nil => rfl
      | cons c cs =>
          by_cases hc : c = '/'
          · subst hc
            rw [collapseGo_cons_slash]
            rfl
          · rw [collapseGo_cons_ne n c cs hc]
            rfl

theorem collapseGo_ne_nil (fuel : Nat) (l : List Char) (h : l ≠ []) :
    collapseGo fuel l ≠ [] := by
  intro h0
  have hh := collapseGo_head? fuel l
  rw [h0] at hh
  cases l with
  | nil => exact h rfl
  | cons a t => simp at hh

theorem collapseGo_mem : ∀ (fuel : Nat) (l : List Char) (c : Char),
    c ∈ collapseGo fuel l → c ∈ l := by
  intro fuel
  induction fuel with
  | zero => intro l c h; exact h
  | succ n ih =>
      intro l c h
      cases l with
      | nil => rw [collapseGo_nil] at h; simp at h
      | cons a cs =>
          by_cases ha : a = '/'
          · subst ha
            rw [collapseGo_cons_slash] at h
            rcases List.mem_cons.mp h with h1 | h1
            · simp [h1]
            · exact List.mem_cons_of_mem _
                (mem_dropWhile_mem _ _ _ (ih _ c h1))
          · rw [collapseGo_cons_ne n a cs ha] at h
            rcases List.mem_cons.mp h with h1 | h1
            · simp [h1]
            · exact List.mem_cons_of_mem _ (ih cs c h1)

theorem collapseGo_fix : ∀ (fuel : Nat) (l : List Char), l.length ≤ fuel →
    noDoubleSlash l → collapseGo fuel l = l := by
  intro fuel
  induction fuel with
  | zero => intro l h hn; rfl
  | succ n ih =>
      intro l h hn
      cases l with
      | nil => exact collapseGo_nil _
      | cons c cs =>
          have hlen : cs.length ≤ n := by
            simp only [List.length_cons] at h
            omega
          by_cases hc : c = '/'
          · subst hc
            rw [collapseGo_cons_slash]
            have hd : cs.dropWhile (· = '/') = cs := by
              cases cs with
              | nil => rfl
              | cons b t =>
                  simp only [noDoubleSlash, Bool.and_eq_true] at hn
                  have hb : b ≠ '/' := by
                    intro hb0
                    have := hn.1
                    simp [hb0] at this
                  exact List.dropWhile_cons_of_neg (by simp [hb])
            rw [hd, ih cs hlen (noDoubleSlash_tail _ _ hn)]
          · rw [collapseGo_cons_ne n c cs hc,
              ih cs hlen (noDoubleSlash_tail _ _ hn)]

theorem collapseGo_noDoubleSlash : ∀ (fuel : Nat) (l : List Char),
    l.length ≤ fuel → noDoubleSlash (collapseGo fuel l) := by
  intro fuel
  induction fuel with
  | zero =>
      intro l h
      have h0 : l = [] := List.length_eq_zero.mp (Nat.le_zero.mp h)
      subst h0
      rfl
  | succ n ih =>
      intro l h
      cases l with
      | nil => rw [collapseGo_nil]; rfl
      | cons c cs =>
          have hlen : cs.length ≤ n := by
            simp only [List.length_cons] at h
            omega
          by_cases hc : c = '/'
          · subst hc
            rw [collapseGo_cons_slash]
            apply noDoubleSlash_cons
            · intro b hb _
              rw [collapseGo_head?] at hb
              have := head?_dropWhile_false _ _ _ hb
              intro hb0
              rw [hb0] at this
              simp at this
            · exact ih _ (le_trans (dropWhile_length_le _ _) hlen)
          · rw [collapseGo_cons_ne n c cs hc]
            apply noDoubleSlash_cons
            · intro b _ hc0
              exact absurd hc0 hc
            · exact ih cs hlen

theorem collapseGo_noColonWord : ∀ (fuel : Nat) (l : List Char),
    l.length ≤ fuel → noColonWord l → noColonWord (collapseGo fuel l) := by
  intro fuel
  induction fuel with
  | zero => intro l h hn; exact hn
  | succ n ih =>
      intro l h hn
      cases l with
      | nil => rw [collapseGo_nil]; rfl
      | cons c cs =>
          have hlen : cs.length ≤ n := by
            simp only [List.length_cons] at h
            omega
          by_cases hc : c = '/'
          · subst hc
            rw [collapseGo_cons_slash]
            apply noColonWord_cons_ne _ _ (by decide)
            exact ih _ (le_trans (dropWhile_length_le _ _) hlen)
              (noColonWord_dropWhile _ _ (noColonWord_tail _ _ hn))
          · rw [collapseGo_cons_ne n c cs hc]
            by_cases hcolon : c = ':'
            · subst hcolon
              apply noColonWord_cons_colon
              · intro b hb
                rw [collapseGo_head?] at hb
                cases cs with
                | nil => simp at hb
                | cons b2 t =>
                    have hb2 : b2 = b := by simpa using hb
                    subst hb2
                    simp only [noColonWord, Bool.and_eq_true] at hn
                    simpa using hn.1
              · exact ih cs hlen (noColonWord_tail _ _ hn)
            · exact noColonWord_cons_ne _ _ hcolon
                (ih cs hlen (noColonWord_tail _ _ hn))

theorem collapseGo_lastNotSpace : ∀ (fuel : Nat) (l : List Char),
    l.length ≤ fuel → lastNotSpace l → lastNotSpace (collapseGo fuel l) := by
  intro fuel
  induction fuel with
  | zero => intro l h hl; exact hl
  | succ n ih =>
      intro l h hl
      cases l with
      | nil => rw [collapseGo_nil]; exact hl
      | cons c cs =>
          have hlen : cs.length ≤ n := by
            simp only [List.length_cons] at h
            omega
          by_cases hc : c = '/'
          · subst hc
            rw [collapseGo_cons_slash]
            intro d hd
            by_cases hds : cs.dropWhile (· = '/') = []
            · rw [hds, collapseGo_nil] at hd
              have hdd : d = '/' := by simpa using hd.symm
              subst hdd
              decide
            · rw [getLast?_cons_ne_nil _ _ (collapseGo_ne_nil n _ hds)] at hd
              have hcs : cs ≠ [] := by
                intro h0
                rw [h0] at hds
                exact hds rfl
              exact ih _ (le_trans (dropWhile_length_le _ _) hlen)
                (lastNotSpace_dropWhile _ _ (lastNotSpace_tail _ _ hl hcs))
                d hd
          · rw [collapseGo_cons_ne n c cs hc]
            intro d hd
            by_cases hcs : cs = []
            · subst hcs
              rw [collapseGo_nil] at hd
              have hdd : d = c := by simpa using hd.symm
              subst hdd
              exact hl d (by simp)
            · rw [getLast?_cons_ne_nil _ _ (collapseGo_ne_nil n cs hcs)] at hd
              exact ih cs hlen (lastNotSpace_tail _ _ hl hcs) d hd

/-! ### `pyStripList` lemmas -/

theorem pyStripList_fix (l : List Char) (c0 : Char) (hh : l.head? = some c0)
    (hc0 : isPySpace c0 = false) (hl : lastNotSpace l) : pyStripList l = l := by
  unfold pyStripList
  have h1 : l.dropWhile isPySpace = l := by
    cases l with
    | nil => rfl
    | cons a t =>
        have ha : a = c0 := by simpa using hh
        subst ha
        exact List.dropWhile_cons_of_neg (by simp [hc0])
  rw [h1]
  have h2 : l.reverse.dropWhile isPySpace = l.reverse := by
    cases hr : l.reverse with
    | nil => rfl
    | cons a t =>
        have hga : l.getLast? = some a := by
          rw [← List.head?_reverse, hr]
          rfl
        exact List.dropWhile_cons_of_neg (by simp [hl a hga])
  rw [h2, List.reverse_reverse]

theorem pyStripList_lastNotSpace (l : List Char) :
    lastNotSpace (pyStripList l) := by
  intro c hc
  unfold pyStripList at hc
  rw [← List.head?_reverse, List.reverse_reverse] at hc
  exact head?_dropWhile_false _ _ _ hc

theorem pyStripList_mem (l : List Char) (c : Char) (h : c ∈ pyStripList l) :
    c ∈ l := by
  unfold pyStripList at h
  rw [List.mem_reverse] at h
  have h2 := mem_dropWhile_mem _ _ _ h
  rw [List.mem_reverse] at h2
  exact mem_dropWhile_mem _ _ _ h2

theorem lastNotSpace_cons_slash (l : List Char) (h : lastNotSpace l) :
    lastNotSpace ('/' :: l) := by
  intro c hc
  by_cases hl : l = []
  · subst hl
    have hcc : c = '/' := by simpa using hc.symm
    subst hcc
    decide
  · rw [getLast?_cons_ne_nil _ _ hl] at hc
    exact h c hc

/-! ### Normal form of `normalize_path` output and the fixpoint theorem -/

theorem normalize_fix (l : List Char) (hhead : l.head? = some '/')
    (hlast : lastNotSpace l) (hcw : noColonWord l) (hds : noDoubleSlash l)
    (hna : '<' ∉ l) : normalize_path (String.mk l) = String.mk l := by
  unfold normalize_path
  show String.mk (collapseSlashes (angleSub (typedAngleSub (colonSub
    (if (pyStripList l).head? = some '/' then pyStripList l
     else '/' :: pyStripList l))))) = String.mk l
  rw [pyStripList_fix l '/' hhead (by decide) hlast]
  rw [if_pos hhead]
  unfold colonSub typedAngleSub angleSub collapseSlashes
  rw [colonGo_fix l.length l le_rfl hcw]
  rw [typedGo_no_angle _ _ hna]
  rw [angleGo_no_angle _ _ hna]
  rw [collapseGo_fix l.length l le_rfl hds]

theorem normalize_output_nf (raw : String) (h : '<' ∉ raw.data) :
    (normalize_path raw).data.head? = some '/' ∧
    lastNotSpace (normalize_path raw).data ∧
    noColonWord (normalize_path raw).data ∧
    noDoubleSlash (normalize_path raw).data ∧
    '<' ∉ (normalize_path raw).data := by
  have hdata : (normalize_path raw).data =
      collapseSlashes (angleSub (typedAngleSub (colonSub
        (if (pyStripList raw.data).head? = some '/' then pyStripList raw.data
         else '/' :: pyStripList raw.data)))) := by
    rfl
  set l0 := pyStripList raw.data with hl0
  set l1 := if l0.head? = some '/' then l0 else '/' :: l0 with hl1
  have h0last : lastNotSpace l0 := pyStripList_lastNotSpace raw.data
  have h0na : '<' ∉ l0 := fun hm => h (pyStripList_mem raw.data '<' hm)
  have h1head : l1.head? = some '/' := by
    rw [hl1]
    by_cases h' : l0.head? = some '/'
    · rw [if_pos h']
      exact h'
    · rw [if_neg h']
      rfl
  have h1last : lastNotSpace l1 := by
    rw [hl1]
    by_cases h' : l0.head? = some '/'
    · rw [if_pos h']
      exact h0last
    · rw [if_neg h']
      exact lastNotSpace_cons_slash l0 h0last
  have h1na : '<' ∉ l1 := by
    rw [hl1]
    by_cases h' : l0.head? = some '/'
    · rw [if_pos h']
      exact h0na
    · rw [if_neg h']
      intro hm
      rcases List.mem_cons.mp hm with hm1 | hm1
      · exact absurd hm1 (by decide)
      · exact h0na hm1
  set l2 := colonSub l1 with hl2
  have h2head : l2.head? = some '/' := by
    obtain ⟨t, ht⟩ : ∃ t, l1 = '/' :: t := by
      cases hc : l1 with
      | nil => rw [hc] at h1head; simp at h1head
      | cons a t =>
          rw [hc] at h1head
          have : a = '/' := by simpa using h1head
          subst this
          exact ⟨t, rfl⟩
    rw [hl2, ht]
    show (colonGo (t.length + 1) ('/' :: t)).head? = some '/'
    rw [colonGo_cons_ne t.length '/' t (by decide)]
    rfl
  have h2last : lastNotSpace l2 :=
    colonGo_lastNotSpace l1.length l1 le_rfl h1last
  have h2cw : noColonWord l2 := colonGo_noColonWord l1.length l1 le_rfl
  have h2na : '<' ∉ l2 := by
    intro hm
    rcases colonGo_mem l1.length l1 '<' hm with h' | h' | h'
    · exact h1na h'
    · exact absurd h' (by decide)
    · exact absurd h' (by decide)
  have h34 : angleSub (typedAngleSub l2) = l2 := by
    unfold typedAngleSub angleSub
    rw [typedGo_no_angle _ _ h2na, angleGo_no_angle _ _ h2na]
  have hout : (normalize_path raw).data = collapseSlashes l2 := by
    rw [hdata, h34]
  rw [hout]
  refine ⟨?_, ?_, ?_, ?_, ?_⟩
  · unfold collapseSlashes
    rw [collapseGo_head?]
    exact h2head
  · exact collapseGo_lastNotSpace l2.length l2 le_rfl h2last
  · exact collapseGo_noColonWord l2.length l2 le_rfl h2cw
  · exact collapseGo_noDoubleSlash l2.length l2 le_rfl
  · intro hm
    exact h2na (collapseGo_mem l2.length l2 '<' hm)

/-- Claim C7, counterexample.  `normalize_path` is not idempotent: on
`"/<a<b>c>"` the untyped angle rule consumes `<a<b>` (greedy up to the
first `>`), leaving `/{a<b}c>`, and a second normalization then matches the
leftover `<b}c>` and produces `/{a{b}c}`. -/
theorem normalize_path_not_idempotent :
    normalize_path (normalize_path "/<a<b>c>") ≠ normalize_path "/<a<b>c>" := by
  decide

/-- Claim C7, amended: `normalize_path` is idempotent on every raw path
that contains no `<` character (the angle-bracket rewrites are the only
source of non-idempotence; the colon rewrite, slash collapsing, stripping
and slash-prefixing all reach a fixed point after one pass). -/
theorem normalize_path_idempotent_no_angle (p : String) (h : '<' ∉ p.data) :
    normalize_path (normalize_path p) = normalize_path p := by
  obtain ⟨h1, h2, h3, h4, h5⟩ := normalize_output_nf p h
  exact normalize_fix (normalize_path p).data h1 h2 h3 h4 h5

/-- Witness for the amended claim C7: normalizing a typical colon-style
path twice equals normalizing it once. -/
theorem normalize_path_idempotent_no_angle_witness :
    normalize_path (normalize_path "/users/:id/posts/:postId") =
      normalize_path "/users/:id/posts/:postId" :=
  normalize_path_idempotent_no_angle "/users/:id/posts/:postId" (by decide)
